import Mathlib

/-
Verification of the explicit-free-list malloc package (mm.c, explicit LIFO list).

Shallow embedding of the C source.  The heap is modelled at block granularity:

* A `Block` records a block's payload address (`addr`, the pointer handed to
  callers), the size stored in its header (`size`, in bytes, including the
  8 bytes of header+footer overhead), and the header's allocated flag
  (`alloc`).  The C code writes header and footer together with the same
  PACK value on every path, so a single copy of (size, alloc) represents
  both boundary tags.
* `Heap.blocks` is the physically ordered list of user blocks lying between
  the prologue and the epilogue.  `NEXT_BLKP`/`PREV_BLKP` pointer arithmetic
  is adjacency in this list; the allocated zero-size sentinels (prologue
  below, epilogue above) appear as the allocated default when a neighbour
  lookup walks off either end.
* `Heap.freelist` is the explicit free list in link order: the list head is
  `mp_firstfreeblock`, and consecutive elements are joined by the SUCC/PREV
  link words stored in each free block's payload.  An empty list stands for
  both `mp_firstfreeblock == NULL` and the freshly initialised
  `mp_firstfreeblock == p_heap_list` state, which the C treats alike.
* `Heap.freecount` is the global `m_freecount` (a C int, hence `Int`).
* `Heap.base` is the address returned by the first `mem_sbrk`; the current
  break (high-water mark) is `base + 16` plus the sizes of all user blocks,
  exactly as `mem_sbrk` accumulates it.
* The raw-memory provider `mem_sbrk` is an external collaborator; a `grow`
  flag selects between unconditional success and unconditional failure.

Machine integers: `size_t` values are modelled as `Nat`.  The C subtraction
`csize - asize` in `place` is `Nat` subtraction; the two agree whenever
`asize ≤ csize`, which holds at every call site (`find_fit` and `extend_heap`
only hand `place` blocks at least as large as the request).
-/

namespace Mlab

/-- word size (bytes), WSIZE -/
def WSIZE : Nat := 4

/-- doubleword size (bytes), DSIZE -/
def DSIZE : Nat := 8

/-- initial heap size (bytes), CHUNKSIZE = 1<<12 -/
def CHUNKSIZE : Nat := 4096

/-- overhead of header and footer (bytes) -/
def OVERHEAD : Nat := 8

/-- One heap block: payload address, header size field, header allocated flag.
The footer is maintained bit-identical to the header on every code path. -/
structure Block where
  addr : Nat
  size : Nat
  alloc : Bool
deriving DecidableEq, Repr

/-- Sentinel tag used when a physical-neighbour lookup walks off the end of
the user blocks: both prologue and epilogue are allocated zero-size blocks. -/
def sentinel : Block := ⟨0, 0, true⟩

/-- Allocator state: the global variables of mm.c plus the managed region. -/
structure Heap where
  base : Nat
  blocks : List Block
  freelist : List Nat
  freecount : Int
deriving DecidableEq, Repr

/-- Sum of the stored sizes of a run of blocks. -/
def sumSizes (l : List Block) : Nat := (l.map Block.size).sum

/-- Current break: the first sbrk took 16 bytes (pad + prologue + epilogue
header), and every later extension adds exactly one block's size. -/
def Heap.hiWater (s : Heap) : Nat := s.base + 4 * WSIZE + sumSizes s.blocks

/-- Read the boundary tag at a block address (GET_SIZE/GET_ALLOC of HDRP).
A lookup that misses every user block answers with the allocated sentinel. -/
def hdrGet (s : Heap) (bp : Nat) : Block :=
  (s.blocks.find? (fun b => b.addr == bp)).getD sentinel

/-- Addresses of the blocks whose header allocated flag is 0, in physical
order (what a header-flag scan of the whole heap reports as free). -/
def freeAddrs (s : Heap) : List Nat :=
  (s.blocks.filter (fun b => !b.alloc)).map Block.addr

/-- free_block: splice block_ptr in as the new head of the LIFO free list
and bump m_freecount.  Both C branches (empty list, non-empty list) set the
new block's PREV to NULL, its SUCC to the old head, and the old head's PREV
to the new block, i.e. they cons the address onto the link-ordered list. -/
def free_block (s : Heap) (bp : Nat) : Heap :=
  { s with freelist := bp :: s.freelist, freecount := s.freecount + 1 }

/-- allocate_block: unlink block_ptr from the free list and drop m_freecount.
After the decrement the C takes four paths: count 0 (sole member: head set to
NULL), count -1 (defensive reset, list untouched), block at tail, head or
middle (splice PREV/SUCC around it).  On a duplicate-free link list that
contains block_ptr, the three splice paths remove exactly the one occurrence
of block_ptr, i.e. `List.erase`. -/
def allocate_block (s : Heap) (bp : Nat) : Heap :=
  if s.freecount - 1 = 0 then
    { s with freelist := [], freecount := 0 }
  else if s.freecount - 1 = -1 then
    { s with freecount := 0 }
  else
    { s with freelist := s.freelist.erase bp, freecount := s.freecount - 1 }

/-- The loop body of find_fit: follow SUCC links from the head until the
link is NULL, returning the first block that is free and large enough. -/
def find_fit_loop (s : Heap) (asize : Nat) : List Nat → Option Nat
  | [] => none
  | bp :: rest =>
    if (hdrGet s bp).alloc = false ∧ asize ≤ (hdrGet s bp).size then some bp
    else find_fit_loop s asize rest

/-- find_fit: first-fit search over the explicit free list.  The C loop
guard `m_freecount >= 0` is tested before the first iteration and never
changes inside the loop, so a negative count returns NULL immediately and
otherwise the walk runs until the SUCC link is NULL. -/
def find_fit (s : Heap) (asize : Nat) : Option Nat :=
  if s.freecount < 0 then none else find_fit_loop s asize s.freelist

/-- Modelled from the spec: scan the Free List from its head in current link
order and return the first block whose stored size is at least the request. -/
def firstFitSpec (s : Heap) (asize : Nat) : Option Nat :=
  s.freelist.find? (fun a => asize ≤ (hdrGet s a).size)

/-- Modelled from the spec: a block's payload capacity is its stored size
minus the fixed header+footer overhead. -/
def payloadSize (s : Heap) (bp : Nat) : Nat := (hdrGet s bp).size - OVERHEAD

/-- Case analysis of coalesce over the physical neighbourhood of the block
at `bp`.  The traversal carries the physical-predecessor context: at the
very front the predecessor is the allocated prologue.  Returns the rewritten
block run, the merged block's address (the C return value), and the
addresses passed to allocate_block, in the order the C removes them.
Case numbering follows the source: 1 both neighbours allocated, 2 only next
free, 3 only previous free, 4 both free. -/
def coalAux (bp : Nat) : List Block → List Block × Nat × List Nat
  | [] => ([], bp, [])
  | b :: rest =>
    if b.addr = bp then
      -- prev_physical is the prologue, so prev_alloc = 1: cases 1 and 2 only
      match rest with
      | [] => (b :: rest, bp, [])
      | n :: rest2 =>
        if n.alloc then (b :: rest, bp, [])
        else (⟨bp, b.size + n.size, false⟩ :: rest2, bp, [n.addr])
    else
      match rest with
      | [] => (b :: rest, bp, [])
      | n :: rest2 =>
        if n.addr = bp then
          -- b is PREV_BLKP(bp); the footer of b supplies prev_alloc
          match rest2 with
          | [] =>
            -- next_physical is the epilogue, so next_alloc = 1
            if b.alloc then (b :: n :: rest2, bp, [])
            else (⟨b.addr, n.size + b.size, false⟩ :: rest2, b.addr, [b.addr])
          | m :: rest3 =>
            if b.alloc then
              if m.alloc then (b :: n :: rest2, bp, [])
              else (b :: ⟨bp, n.size + m.size, false⟩ :: rest3, bp, [m.addr])
            else
              if m.alloc then (⟨b.addr, n.size + b.size, false⟩ :: rest2, b.addr, [b.addr])
              else (⟨b.addr, n.size + (b.size + m.size), false⟩ :: rest3, b.addr,
                    [m.addr, b.addr])
        else
          let r := coalAux bp rest
          (b :: r.1, r.2.1, r.2.2)

/-- coalesce: boundary-tag coalescing of the free block at `bp`.  Each free
neighbour is unlinked (allocate_block) before the merged header/footer
replace its tags, and exactly one free_block call inserts the final merged
block, whose address is PREV_BLKP(bp) whenever the previous neighbour was
free.  Returns the new state and the merged block's address. -/
def coalesce (s : Heap) (bp : Nat) : Heap × Nat :=
  let r := coalAux bp s.blocks
  let s1 := r.2.2.foldl allocate_block { s with blocks := r.1 }
  (free_block s1 r.2.1, r.2.1)

/-- The header/footer rewrites of place on the block run: at the chosen
block, either split (first asize bytes allocated, remainder formatted free)
or allocate the whole block at its original size.  Also reports the
split-off remainder's address when a split happened. -/
def placeBlocks (bp asize : Nat) : List Block → List Block × Option Nat
  | [] => ([], none)
  | b :: rest =>
    if b.addr = bp then
      if DSIZE + OVERHEAD ≤ b.size - asize then
        (⟨bp, asize, true⟩ :: ⟨bp + asize, b.size - asize, false⟩ :: rest,
         some (bp + asize))
      else
        (⟨bp, b.size, true⟩ :: rest, none)
    else
      let r := placeBlocks bp asize rest
      (b :: r.1, r.2)

/-- place: remove the chosen block from the free list, then split if the
leftover is at least the minimum block size (DSIZE + OVERHEAD), inserting
the remainder into the free list; otherwise allocate the whole block. -/
def place (s : Heap) (bp asize : Nat) : Heap :=
  let s1 := allocate_block s bp
  let r := placeBlocks bp asize s1.blocks
  match r.2 with
  | some rem => free_block { s1 with blocks := r.1 } rem
  | none => { s1 with blocks := r.1 }

/-- mm_free: rewrite the block's header and footer with the same size and a
cleared allocated flag, then coalesce. -/
def mm_free (s : Heap) (bp : Nat) : Heap :=
  let blocks1 := s.blocks.map (fun b => if b.addr == bp then ⟨b.addr, b.size, false⟩ else b)
  (coalesce { s with blocks := blocks1 } bp).1

/-- The successful branch of extend_heap: round the word count up to an even
number of words, obtain that many bytes from mem_sbrk (the new space starts
at the old break, where the old epilogue header sat), format it as one free
block whose header/footer carry the new size, write a fresh epilogue header
at the new break, and coalesce with a possibly-free predecessor. -/
def extend_heap_ok (s : Heap) (words : Nat) : Heap × Nat :=
  let size := if words % 2 = 1 then (words + 1) * WSIZE else words * WSIZE
  let bp := s.hiWater
  coalesce { s with blocks := s.blocks ++ [⟨bp, size, false⟩] } bp

/-- extend_heap: mem_sbrk either fails (returns (void *)-1, propagated as
NULL with no state change) or extends the heap contiguously. -/
def extend_heap (grow : Bool) (s : Heap) (words : Nat) : Option (Heap × Nat) :=
  if grow then some (extend_heap_ok s words) else none

/-- mm_init (success path): the first mem_sbrk lays down padding, prologue
header/footer and epilogue header; the globals are reset; the empty heap is
extended with a CHUNKSIZE-byte free block.  The two stray link writes at
`mp_firstfreeblock + WSIZE` re-store NULL over the sole free block's SUCC
slot and its first payload word, which no later read observes.  A failing
mem_sbrk makes mm_init return -1 without constructing a heap. -/
def mm_init (base : Nat) : Heap :=
  (extend_heap_ok { base := base, blocks := [], freelist := [], freecount := 0 }
    (CHUNKSIZE / WSIZE)).1

/-- Adjusted block size of mm_malloc: overhead plus alignment padding, with
a floor at the minimum block size DSIZE + OVERHEAD. -/
def adjustSize (size : Nat) : Nat :=
  if size ≤ DSIZE then DSIZE + OVERHEAD
  else DSIZE * ((size + OVERHEAD + (DSIZE - 1)) / DSIZE)

/-- mm_malloc: reject zero-size requests, adjust the size, search the free
list first, and only on a miss ask the provider for max(asize, CHUNKSIZE)
bytes, propagating a growth failure as NULL with no state change. -/
def mm_malloc (grow : Bool) (s : Heap) (size : Nat) : Option Nat × Heap :=
  if size = 0 then (none, s)
  else
    let asize := adjustSize size
    match find_fit s asize with
    | some bp => (some bp, place s bp asize)
    | none =>
      let extendsize := max asize CHUNKSIZE
      match extend_heap grow s (extendsize / WSIZE) with
      | none => (none, s)
      | some r => (some r.2, place r.1 r.2 asize)

/-- mm_realloc: allocate a fresh block, read the byte count to copy as
min(size, GET_SIZE(HDRP(ptr))) — the old block's stored size, overhead
included — memcpy that many bytes, free the old block, return the new
address together with the copied byte count.  `none` models the baseline's
fatal exit(1) when the internal mm_malloc fails. -/
def mm_realloc (grow : Bool) (s : Heap) (ptr : Nat) (size : Nat) :
    Option (Nat × Nat × Heap) :=
  match mm_malloc grow s size with
  | (none, _) => none
  | (some newp, s1) =>
    let copySize := (hdrGet s1 ptr).size
    let copySize := if size < copySize then size else copySize
    some (newp, copySize, mm_free s1 ptr)

/-- Physical contiguity: each block starts where its predecessor ends, the
first one right above the prologue. -/
def addrChain (a : Nat) : List Block → Bool
  | [] => true
  | b :: rest => (b.addr == a) && addrChain (a + b.size) rest

/-- Boundary-tag discipline on adjacency: no two physically adjacent blocks
are both free. -/
def noAdjFree : List Block → Bool
  | [] => true
  | [_] => true
  | a :: b :: rest => (a.alloc || b.alloc) && noAdjFree (b :: rest)

/-- The heap consistency invariant of every quiescent state: aligned base,
contiguous blocks, sizes at least the minimum block size and doubleword
aligned, a duplicate-free free list that agrees exactly with the header
allocated flags, no two adjacent free blocks, and m_freecount equal to the
free-list length. -/
structure Inv (s : Heap) : Prop where
  base_align : s.base % 8 = 0
  chain : addrChain (s.base + 4 * WSIZE) s.blocks = true
  sizes : ∀ b ∈ s.blocks, DSIZE + OVERHEAD ≤ b.size ∧ b.size % 8 = 0
  nodup : s.freelist.Nodup
  mem_free : ∀ a ∈ s.freelist, a ∈ freeAddrs s
  free_mem : ∀ b ∈ s.blocks, b.alloc = false → b.addr ∈ s.freelist
  nadj : noAdjFree s.blocks = true
  count : s.freecount = s.freelist.length

instance (s : Heap) : Decidable (Inv s) :=
  decidable_of_iff
    (s.base % 8 = 0 ∧ addrChain (s.base + 4 * WSIZE) s.blocks = true ∧
      (∀ b ∈ s.blocks, DSIZE + OVERHEAD ≤ b.size ∧ b.size % 8 = 0) ∧
      s.freelist.Nodup ∧ (∀ a ∈ s.freelist, a ∈ freeAddrs s) ∧
      (∀ b ∈ s.blocks, b.alloc = false → b.addr ∈ s.freelist) ∧
      noAdjFree s.blocks = true ∧ s.freecount = s.freelist.length)
    ⟨fun h => ⟨h.1, h.2.1, h.2.2.1, h.2.2.2.1, h.2.2.2.2.1, h.2.2.2.2.2.1,
       h.2.2.2.2.2.2.1, h.2.2.2.2.2.2.2⟩,
     fun h => ⟨h.base_align, h.chain, h.sizes, h.nodup, h.mem_free, h.free_mem,
       h.nadj, h.count⟩⟩

/-- The allocated flag of the physical predecessor of position `i` in the
block run: the prologue when `i` is the first block. -/
def prevAllocAt (s : Heap) (i : Nat) : Bool :=
  if i = 0 then true else (s.blocks.getD (i - 1) sentinel).alloc

/-- The allocated flag of the physical successor of position `i` in the
block run: the epilogue when `i` is the last block. -/
def nextAllocAt (s : Heap) (i : Nat) : Bool :=
  (s.blocks.getD (i + 1) sentinel).alloc

/-- The quiescent states: everything obtainable from mm_init by the public
operations.  mm_free and mm_realloc carry their C precondition that the
address is a live allocated block. -/
inductive Reachable : Heap → Prop
  | init (base : Nat) (h : base % 8 = 0) : Reachable (mm_init base)
  | malloc (s : Heap) (grow : Bool) (n : Nat) (hs : Reachable s) :
      Reachable (mm_malloc grow s n).2
  | free (s : Heap) (b : Block) (hs : Reachable s) (hb : b ∈ s.blocks)
      (ha : b.alloc = true) : Reachable (mm_free s b.addr)
  | realloc (s : Heap) (grow : Bool) (b : Block) (n : Nat) (np cs : Nat) (s2 : Heap)
      (hs : Reachable s) (hb : b ∈ s.blocks) (ha : b.alloc = true)
      (h : mm_realloc grow s b.addr n = some (np, cs, s2)) : Reachable s2

/-! Basic lemmas about the block-run measures. -/

@[simp] theorem sumSizes_nil : sumSizes [] = 0 := rfl

@[simp] theorem sumSizes_cons (b : Block) (l : List Block) :
    sumSizes (b :: l) = b.size + sumSizes l := by
  simp [sumSizes]

@[simp] theorem sumSizes_append (l1 l2 : List Block) :
    sumSizes (l1 ++ l2) = sumSizes l1 + sumSizes l2 := by
  simp [sumSizes]

@[simp] theorem addrChain_nil (a : Nat) : addrChain a [] = true := rfl

theorem addrChain_cons (a : Nat) (b : Block) (l : List Block) :
    addrChain a (b :: l) = ((b.addr == a) && addrChain (a + b.size) l) := rfl

theorem addrChain_append (a : Nat) (l1 l2 : List Block) :
    addrChain a (l1 ++ l2) = (addrChain a l1 && addrChain (a + sumSizes l1) l2) := by
  induction l1 generalizing a with
  | nil => simp
  | cons b t ih =>
    simp only [List.cons_append, addrChain_cons, ih (a + b.size), sumSizes_cons,
      Bool.and_assoc, ← Nat.add_assoc]

theorem addrChain_mem_bounds {a : Nat} {l : List Block} (h : addrChain a l = true)
    {b : Block} (hb : b ∈ l) : a ≤ b.addr ∧ b.addr + b.size ≤ a + sumSizes l := by
  induction l generalizing a with
  | nil => cases hb
  | cons x t ih =>
    rw [addrChain_cons, Bool.and_eq_true, beq_iff_eq] at h
    obtain ⟨h1, h2⟩ := h
    rcases List.mem_cons.1 hb with rfl | hb
    · simp only [sumSizes_cons]
      omega
    · have h3 := ih h2 hb
      simp only [sumSizes_cons]
      omega

/-- Any member of a contiguous run can be peeled off with strict address
bounds on both sides. -/
theorem addrChain_mem_split {a : Nat} {l : List Block} (h : addrChain a l = true)
    {b : Block} (hb : b ∈ l) :
    ∃ L R, l = L ++ b :: R ∧ (∀ x ∈ L, x.addr + x.size ≤ b.addr) ∧
      (∀ y ∈ R, b.addr + b.size ≤ y.addr) := by
  induction l generalizing a with
  | nil => cases hb
  | cons x t ih =>
    rw [addrChain_cons, Bool.and_eq_true, beq_iff_eq] at h
    obtain ⟨h1, h2⟩ := h
    rcases List.mem_cons.1 hb with rfl | hb
    · refine ⟨[], t, rfl, by simp, fun y hy => ?_⟩
      have hy2 := addrChain_mem_bounds h2 hy
      omega
    · obtain ⟨L, R, ht, hL, hR⟩ := ih h2 hb
      subst ht
      have hbb := addrChain_mem_bounds h2 hb
      refine ⟨x :: L, R, rfl, ?_, hR⟩
      intro z hz
      rcases List.mem_cons.1 hz with hzx | hz
      · subst hzx
        omega
      · exact hL z hz

@[simp] theorem noAdjFree_nil : noAdjFree [] = true := rfl

@[simp] theorem noAdjFree_single (b : Block) : noAdjFree [b] = true := rfl

theorem noAdjFree_cons_cons (a b : Block) (l : List Block) :
    noAdjFree (a :: b :: l) = ((a.alloc || b.alloc) && noAdjFree (b :: l)) := rfl

/-- The allocated flag at a run's left end, the allocated sentinel for an
empty run. -/
def headAlloc (l : List Block) : Bool := (l.head?.getD sentinel).alloc

/-- The allocated flag at a run's right end, the allocated sentinel for an
empty run. -/
def lastAlloc (l : List Block) : Bool := (l.getLast?.getD sentinel).alloc

@[simp] theorem headAlloc_nil : headAlloc [] = true := rfl

@[simp] theorem headAlloc_cons (b : Block) (l : List Block) :
    headAlloc (b :: l) = b.alloc := rfl

@[simp] theorem lastAlloc_nil : lastAlloc [] = true := rfl

@[simp] theorem lastAlloc_concat (l : List Block) (b : Block) :
    lastAlloc (l ++ [b]) = b.alloc := by
  simp [lastAlloc]

theorem lastAlloc_cons_cons (a b : Block) (l : List Block) :
    lastAlloc (a :: b :: l) = lastAlloc (b :: l) := by
  simp [lastAlloc]

theorem noAdjFree_append (l1 l2 : List Block) :
    noAdjFree (l1 ++ l2) =
      (noAdjFree l1 && noAdjFree l2 && (lastAlloc l1 || headAlloc l2)) := by
  induction l1 with
  | nil => simp
  | cons x t ih =>
    cases t with
    | nil =>
      cases l2 with
      | nil => simp [lastAlloc]
      | cons y u =>
        simp [noAdjFree_cons_cons, lastAlloc, headAlloc, Bool.and_comm]
    | cons y u =>
      simp only [List.cons_append] at ih ⊢
      rw [noAdjFree_cons_cons, ih, noAdjFree_cons_cons, lastAlloc_cons_cons]
      simp [Bool.and_assoc]

/-- find? over a run locates a block by its address provided no earlier
block shares that address. -/
theorem find?_addr (L : List Block) (b : Block) (R : List Block)
    (hL : ∀ x ∈ L, x.addr ≠ b.addr) :
    (L ++ b :: R).find? (fun x => x.addr == b.addr) = some b := by
  induction L with
  | nil => simp [List.find?]
  | cons x t ih =>
    have hx : (x.addr == b.addr) = false := by
      simpa using hL x (List.mem_cons_self x t)
    simp only [List.cons_append, List.find?, hx]
    exact ih fun z hz => hL z (List.mem_cons_of_mem x hz)

theorem hdrGet_of_split {s : Heap} {L R : List Block} {b : Block}
    (hs : s.blocks = L ++ b :: R) (hL : ∀ x ∈ L, x.addr ≠ b.addr) :
    hdrGet s b.addr = b := by
  simp [hdrGet, hs, find?_addr L b R hL]

/-! Unfolding lemmas for the free-list splices. -/

/-- On a well-counted, duplicate-free list that contains the block, the
four removal paths of allocate_block amount to erasing that block. -/
theorem allocate_block_spec (s : Heap) (bp : Nat)
    (hc : s.freecount = s.freelist.length) (hm : bp ∈ s.freelist) :
    allocate_block s bp =
      { s with freelist := s.freelist.erase bp, freecount := s.freecount - 1 } := by
  have hlen : 0 < s.freelist.length := List.length_pos.2 (List.ne_nil_of_mem hm)
  unfold allocate_block
  by_cases h0 : s.freecount - 1 = 0
  · have hl1 : s.freelist.length = 1 := by omega
    obtain ⟨a, ha⟩ := List.length_eq_one.1 hl1
    have hba : bp = a := by simpa [ha] using hm
    subst hba
    have hfe : s.freelist.erase bp = [] := by rw [ha]; simp
    rw [if_pos h0, hfe, h0]
  · have h1 : ¬(s.freecount - 1 = -1) := by omega
    rw [if_neg h0, if_neg h1]

/-! Unfolding lemmas for coalAux: the four boundary-tag cases at each
possible physical neighbourhood. -/

theorem coalAux_head_nil {bp : Nat} {b : Block} (hb : b.addr = bp) :
    coalAux bp [b] = ([b], bp, []) := by
  simp [coalAux, hb]

theorem coalAux_head_allocNext {bp : Nat} {b n : Block} (R : List Block)
    (hb : b.addr = bp) (hn : n.alloc = true) :
    coalAux bp (b :: n :: R) = (b :: n :: R, bp, []) := by
  simp [coalAux, hb, hn]

theorem coalAux_head_freeNext {bp : Nat} {b n : Block} (R : List Block)
    (hb : b.addr = bp) (hn : n.alloc = false) :
    coalAux bp (b :: n :: R) = (⟨bp, b.size + n.size, false⟩ :: R, bp, [n.addr]) := by
  simp [coalAux, hb, hn]

theorem coalAux_mid_nil_alloc {bp : Nat} {p b : Block}
    (hp : p.addr ≠ bp) (hb : b.addr = bp) (ha : p.alloc = true) :
    coalAux bp [p, b] = ([p, b], bp, []) := by
  simp [coalAux, hp, hb, ha]

theorem coalAux_mid_nil_free {bp : Nat} {p b : Block}
    (hp : p.addr ≠ bp) (hb : b.addr = bp) (ha : p.alloc = false) :
    coalAux bp [p, b] = ([⟨p.addr, b.size + p.size, false⟩], p.addr, [p.addr]) := by
  simp [coalAux, hp, hb, ha]

theorem coalAux_mid_alloc_alloc {bp : Nat} {p b m : Block} (R : List Block)
    (hp : p.addr ≠ bp) (hb : b.addr = bp) (ha : p.alloc = true) (hm : m.alloc = true) :
    coalAux bp (p :: b :: m :: R) = (p :: b :: m :: R, bp, []) := by
  simp [coalAux, hp, hb, ha, hm]

theorem coalAux_mid_alloc_free {bp : Nat} {p b m : Block} (R : List Block)
    (hp : p.addr ≠ bp) (hb : b.addr = bp) (ha : p.alloc = true) (hm : m.alloc = false) :
    coalAux bp (p :: b :: m :: R) =
      (p :: ⟨bp, b.size + m.size, false⟩ :: R, bp, [m.addr]) := by
  simp [coalAux, hp, hb, ha, hm]

theorem coalAux_mid_free_alloc {bp : Nat} {p b m : Block} (R : List Block)
    (hp : p.addr ≠ bp) (hb : b.addr = bp) (ha : p.alloc = false) (hm : m.alloc = true) :
    coalAux bp (p :: b :: m :: R) =
      (⟨p.addr, b.size + p.size, false⟩ :: m :: R, p.addr, [p.addr]) := by
  simp [coalAux, hp, hb, ha, hm]

theorem coalAux_mid_free_free {bp : Nat} {p b m : Block} (R : List Block)
    (hp : p.addr ≠ bp) (hb : b.addr = bp) (ha : p.alloc = false) (hm : m.alloc = false) :
    coalAux bp (p :: b :: m :: R) =
      (⟨p.addr, b.size + (p.size + m.size), false⟩ :: R, p.addr, [m.addr, p.addr]) := by
  simp [coalAux, hp, hb, ha, hm]

theorem coalAux_skip {bp : Nat} (x : Block) (l : List Block) (hx : x.addr ≠ bp)
    (hhead : ∀ y, l.head? = some y → y.addr ≠ bp) (hne : l ≠ []) :
    coalAux bp (x :: l) =
      (x :: (coalAux bp l).1, (coalAux bp l).2.1, (coalAux bp l).2.2) := by
  cases l with
  | nil => cases hne rfl
  | cons y t =>
    have hy : y.addr ≠ bp := hhead y rfl
    simp [coalAux, hx, hy]

/-- Walking coalAux down a prefix of blocks that do not contain the target:
the prefix is reproduced unchanged up to the physical predecessor, which
supplies the prev_alloc boundary tag. -/
theorem coalAux_decomp_concat {bp : Nat} (L : List Block) (p b : Block) (R : List Block)
    (hb : b.addr = bp) (hL : ∀ x ∈ L, x.addr ≠ bp) (hp : p.addr ≠ bp) :
    coalAux bp ((L ++ [p]) ++ b :: R) =
      (L ++ (coalAux bp (p :: b :: R)).1, (coalAux bp (p :: b :: R)).2.1,
       (coalAux bp (p :: b :: R)).2.2) := by
  induction L with
  | nil => simp
  | cons x t ih =>
    have hx : x.addr ≠ bp := hL x (List.mem_cons_self x t)
    have htail : ∀ z ∈ t, z.addr ≠ bp := fun z hz => hL z (List.mem_cons_of_mem x hz)
    have hhead : ∀ y, ((t ++ [p]) ++ b :: R).head? = some y → y.addr ≠ bp := by
      intro y hy
      cases t with
      | nil =>
        simp at hy
        subst hy
        exact hp
      | cons z t2 =>
        simp at hy
        subst hy
        exact htail z (List.mem_cons_self z t2)
    have hne : (t ++ [p]) ++ b :: R ≠ [] := by simp
    have hstep := @coalAux_skip bp x ((t ++ [p]) ++ b :: R) hx hhead hne
    have hshape : ((x :: t ++ [p]) ++ b :: R) = x :: ((t ++ [p]) ++ b :: R) := by simp
    rw [hshape, hstep, ih htail]
    simp

/-! The four cases of coalesce, as whole-state equations. -/

/-- Case 1: both physical neighbours allocated — no merge, the block alone
is inserted at the head of the free list. -/
theorem coalesce_case1 (s : Heap) (L : List Block) (b : Block) (R : List Block)
    (hs : s.blocks = L ++ b :: R) (hL : ∀ x ∈ L, x.addr ≠ b.addr)
    (hprev : lastAlloc L = true) (hnext : headAlloc R = true) :
    coalesce s b.addr =
      ({ s with freelist := b.addr :: s.freelist, freecount := s.freecount + 1 },
       b.addr) := by
  have haux : coalAux b.addr s.blocks = (L ++ b :: R, b.addr, []) := by
    rcases List.eq_nil_or_concat L with rfl | ⟨L2, p, rfl⟩
    · cases R with
      | nil => simpa [hs] using coalAux_head_nil rfl
      | cons m R2 =>
        have hm : m.alloc = true := by simpa [headAlloc] using hnext
        simpa [hs] using coalAux_head_allocNext R2 rfl hm
    · simp only [List.concat_eq_append] at hs hL hprev ⊢
      have hpa : p.alloc = true := by simpa using hprev
      have hpaddr : p.addr ≠ b.addr := hL p (by simp)
      have hL2 : ∀ x ∈ L2, x.addr ≠ b.addr := fun x hx => hL x (by simp [hx])
      rw [hs, coalAux_decomp_concat L2 p b R rfl hL2 hpaddr]
      cases R with
      | nil => rw [coalAux_mid_nil_alloc hpaddr rfl hpa]; simp
      | cons m R2 =>
        have hm : m.alloc = true := by simpa [headAlloc] using hnext
        rw [coalAux_mid_alloc_alloc R2 hpaddr rfl hpa hm]
        simp
  unfold coalesce
  rw [haux]
  simp only [List.foldl_nil]
  rw [← hs]
  rfl

/-- Case 2: only the next physical neighbour is free — it is unlinked,
the sizes are summed into this block's tags, and the merged block keeps
this block's address. -/
theorem coalesce_case2 (s : Heap) (L : List Block) (b n : Block) (R2 : List Block)
    (hs : s.blocks = L ++ b :: n :: R2) (hL : ∀ x ∈ L, x.addr ≠ b.addr)
    (hprev : lastAlloc L = true) (hn : n.alloc = false)
    (hc : s.freecount = s.freelist.length) (hm : n.addr ∈ s.freelist) :
    coalesce s b.addr =
      ({ s with
           blocks := L ++ (⟨b.addr, b.size + n.size, false⟩ : Block) :: R2,
           freelist := b.addr :: s.freelist.erase n.addr,
           freecount := s.freecount }, b.addr) := by
  have haux : coalAux b.addr s.blocks =
      (L ++ ⟨b.addr, b.size + n.size, false⟩ :: R2, b.addr, [n.addr]) := by
    rcases List.eq_nil_or_concat L with rfl | ⟨L2, p, rfl⟩
    · simpa [hs] using coalAux_head_freeNext R2 rfl hn
    · simp only [List.concat_eq_append] at hs hL hprev ⊢
      have hpa : p.alloc = true := by simpa using hprev
      have hpaddr : p.addr ≠ b.addr := hL p (by simp)
      have hL2 : ∀ x ∈ L2, x.addr ≠ b.addr := fun x hx => hL x (by simp [hx])
      rw [hs, coalAux_decomp_concat L2 p b (n :: R2) rfl hL2 hpaddr,
        coalAux_mid_alloc_free R2 hpaddr rfl hpa hn]
      simp
  unfold coalesce
  rw [haux]
  simp only [List.foldl_cons, List.foldl_nil]
  rw [allocate_block_spec
    { s with blocks := L ++ (⟨b.addr, b.size + n.size, false⟩ : Block) :: R2 }
    n.addr hc hm]
  unfold free_block
  simp [Int.sub_add_cancel]

/-- Case 3: only the previous physical neighbour is free — it is unlinked,
the sizes are summed into its header and this block's footer, and the
merged block takes the previous block's address. -/
theorem coalesce_case3 (s : Heap) (L2 : List Block) (p b : Block) (R : List Block)
    (hs : s.blocks = (L2 ++ [p]) ++ b :: R) (hL : ∀ x ∈ L2 ++ [p], x.addr ≠ b.addr)
    (hp : p.alloc = false) (hnext : headAlloc R = true)
    (hc : s.freecount = s.freelist.length) (hm : p.addr ∈ s.freelist) :
    coalesce s b.addr =
      ({ s with
           blocks := L2 ++ (⟨p.addr, b.size + p.size, false⟩ : Block) :: R,
           freelist := p.addr :: s.freelist.erase p.addr,
           freecount := s.freecount }, p.addr) := by
  have hpaddr : p.addr ≠ b.addr := hL p (by simp)
  have hL2 : ∀ x ∈ L2, x.addr ≠ b.addr := fun x hx => hL x (by simp [hx])
  have haux : coalAux b.addr s.blocks =
      (L2 ++ ⟨p.addr, b.size + p.size, false⟩ :: R, p.addr, [p.addr]) := by
    rw [hs, coalAux_decomp_concat L2 p b R rfl hL2 hpaddr]
    cases R with
    | nil => rw [coalAux_mid_nil_free hpaddr rfl hp]
    | cons m R2 =>
      have hma : m.alloc = true := by simpa [headAlloc] using hnext
      rw [coalAux_mid_free_alloc R2 hpaddr rfl hp hma]
  unfold coalesce
  rw [haux]
  simp only [List.foldl_cons, List.foldl_nil]
  rw [allocate_block_spec
    { s with blocks := L2 ++ (⟨p.addr, b.size + p.size, false⟩ : Block) :: R }
    p.addr hc hm]
  unfold free_block
  simp [Int.sub_add_cancel]

/-- Case 4: both physical neighbours are free — the next one is unlinked
first, then the previous one; all three sizes are summed and the merged
block takes the previous block's address. -/
theorem coalesce_case4 (s : Heap) (L2 : List Block) (p b n : Block) (R2 : List Block)
    (hs : s.blocks = (L2 ++ [p]) ++ b :: n :: R2)
    (hL : ∀ x ∈ L2 ++ [p], x.addr ≠ b.addr)
    (hp : p.alloc = false) (hn : n.alloc = false)
    (hc : s.freecount = s.freelist.length)
    (hmp : p.addr ∈ s.freelist) (hmn : n.addr ∈ s.freelist)
    (hne : p.addr ≠ n.addr) :
    coalesce s b.addr =
      ({ s with
           blocks := L2 ++ (⟨p.addr, b.size + (p.size + n.size), false⟩ : Block) :: R2,
           freelist := p.addr :: (s.freelist.erase n.addr).erase p.addr,
           freecount := s.freecount - 1 }, p.addr) := by
  have hpaddr : p.addr ≠ b.addr := hL p (by simp)
  have hL2 : ∀ x ∈ L2, x.addr ≠ b.addr := fun x hx => hL x (by simp [hx])
  have haux : coalAux b.addr s.blocks =
      (L2 ++ ⟨p.addr, b.size + (p.size + n.size), false⟩ :: R2, p.addr,
       [n.addr, p.addr]) := by
    rw [hs, coalAux_decomp_concat L2 p b (n :: R2) rfl hL2 hpaddr,
      coalAux_mid_free_free R2 hpaddr rfl hp hn]
  unfold coalesce
  rw [haux]
  simp only [List.foldl_cons, List.foldl_nil]
  rw [allocate_block_spec
    { s with blocks := L2 ++ (⟨p.addr, b.size + (p.size + n.size), false⟩ : Block) :: R2 }
    n.addr hc hmn]
  have hmp2 : p.addr ∈ s.freelist.erase n.addr := (List.mem_erase_of_ne hne).2 hmp
  have hlen : 0 < s.freelist.length := List.length_pos.2 (List.ne_nil_of_mem hmp)
  have hc2 : s.freecount - 1 = ((s.freelist.erase n.addr).length : Int) := by
    rw [List.length_erase_of_mem hmn]
    omega
  rw [allocate_block_spec
    { s with
        blocks := L2 ++ (⟨p.addr, b.size + (p.size + n.size), false⟩ : Block) :: R2,
        freelist := s.freelist.erase n.addr,
        freecount := s.freecount - 1 }
    p.addr hc2 hmp2]
  unfold free_block
  simp [Int.sub_add_cancel]

/-! Membership and alignment helpers derived from the invariant. -/

theorem mem_freeAddrs {s : Heap} {a : Nat} :
    a ∈ freeAddrs s ↔ ∃ b ∈ s.blocks, b.addr = a ∧ b.alloc = false := by
  simp only [freeAddrs, List.mem_map, List.mem_filter, Bool.not_eq_true']
  constructor
  · rintro ⟨b, ⟨hb, hal⟩, rfl⟩
    exact ⟨b, hb, rfl, hal⟩
  · rintro ⟨b, hb, rfl, hal⟩
    exact ⟨b, ⟨hb, hal⟩, rfl⟩

theorem addrChain_addr_mod {a : Nat} {l : List Block} (h : addrChain a l = true)
    (hsz : ∀ b ∈ l, b.size % 8 = 0) (ha : a % 8 = 0) {b : Block} (hb : b ∈ l) :
    b.addr % 8 = 0 := by
  induction l generalizing a with
  | nil => cases hb
  | cons x t ih =>
    rw [addrChain_cons, Bool.and_eq_true, beq_iff_eq] at h
    obtain ⟨h1, h2⟩ := h
    rcases List.mem_cons.1 hb with rfl | hb
    · omega
    · have hx : x.size % 8 = 0 := hsz x (List.mem_cons_self x t)
      exact ih h2 (fun c hc => hsz c (List.mem_cons_of_mem x hc)) (by omega) hb

theorem Inv.addr_align {s : Heap} (hI : Inv s) {b : Block} (hb : b ∈ s.blocks) :
    b.addr % 8 = 0 := by
  refine addrChain_addr_mod hI.chain (fun c hc => (hI.sizes c hc).2) ?_ hb
  have := hI.base_align
  simp only [WSIZE]
  omega

/-- Peel a member block off the physical run, with strict separation of its
address from every other block's. -/
theorem Inv.fetch {s : Heap} (hI : Inv s) {b : Block} (hb : b ∈ s.blocks) :
    ∃ L R, s.blocks = L ++ b :: R ∧
      (∀ x ∈ L, x.addr + x.size ≤ b.addr ∧ x.addr < b.addr) ∧
      (∀ y ∈ R, b.addr + b.size ≤ y.addr ∧ b.addr < y.addr) := by
  obtain ⟨L, R, hs, hL, hR⟩ := addrChain_mem_split hI.chain hb
  refine ⟨L, R, hs, fun x hx => ?_, fun y hy => ?_⟩
  · have h1 := hL x hx
    have h2 : DSIZE + OVERHEAD ≤ x.size := by
      refine (hI.sizes x ?_).1
      rw [hs]
      exact List.mem_append_left _ hx
    simp only [DSIZE, OVERHEAD] at h2
    omega
  · have h1 := hR y hy
    have h2 : DSIZE + OVERHEAD ≤ b.size := (hI.sizes b hb).1
    simp only [DSIZE, OVERHEAD] at h2
    omega

/-! Unfolding lemmas for place. -/

theorem placeBlocks_split (L : List Block) (b : Block) (R : List Block) (asize : Nat)
    (hL : ∀ x ∈ L, x.addr ≠ b.addr) (hbig : DSIZE + OVERHEAD ≤ b.size - asize) :
    placeBlocks b.addr asize (L ++ b :: R) =
      (L ++ (⟨b.addr, asize, true⟩ : Block) ::
        (⟨b.addr + asize, b.size - asize, false⟩ : Block) :: R,
       some (b.addr + asize)) := by
  induction L with
  | nil => simp [placeBlocks, hbig]
  | cons x t ih =>
    have hx : x.addr ≠ b.addr := hL x (List.mem_cons_self x t)
    have ht : ∀ z ∈ t, z.addr ≠ b.addr := fun z hz => hL z (List.mem_cons_of_mem x hz)
    simp only [List.cons_append, placeBlocks, if_neg hx, List.append_eq, ih ht]

theorem placeBlocks_whole (L : List Block) (b : Block) (R : List Block) (asize : Nat)
    (hL : ∀ x ∈ L, x.addr ≠ b.addr) (hsmall : ¬ DSIZE + OVERHEAD ≤ b.size - asize) :
    placeBlocks b.addr asize (L ++ b :: R) =
      (L ++ (⟨b.addr, b.size, true⟩ : Block) :: R, none) := by
  induction L with
  | nil => simp [placeBlocks, hsmall]
  | cons x t ih =>
    have hx : x.addr ≠ b.addr := hL x (List.mem_cons_self x t)
    have ht : ∀ z ∈ t, z.addr ≠ b.addr := fun z hz => hL z (List.mem_cons_of_mem x hz)
    simp only [List.cons_append, placeBlocks, if_neg hx, List.append_eq, ih ht]

/-- place when the leftover reaches the minimum block size: split, with the
remainder inserted at the head of the free list. -/
theorem place_split_spec (s : Heap) (L : List Block) (b : Block) (R : List Block)
    (asize : Nat) (hs : s.blocks = L ++ b :: R) (hL : ∀ x ∈ L, x.addr ≠ b.addr)
    (hbig : DSIZE + OVERHEAD ≤ b.size - asize)
    (hc : s.freecount = s.freelist.length) (hm : b.addr ∈ s.freelist) :
    place s b.addr asize =
      { s with
          blocks := L ++ (⟨b.addr, asize, true⟩ : Block) ::
            (⟨b.addr + asize, b.size - asize, false⟩ : Block) :: R,
          freelist := (b.addr + asize) :: s.freelist.erase b.addr,
          freecount := s.freecount } := by
  unfold place
  rw [allocate_block_spec s b.addr hc hm]
  simp only [hs, placeBlocks_split L b R asize hL hbig]
  unfold free_block
  simp [Int.sub_add_cancel]

/-- place when the leftover is below the minimum block size: the whole
block is allocated at its original size with no split. -/
theorem place_whole_spec (s : Heap) (L : List Block) (b : Block) (R : List Block)
    (asize : Nat) (hs : s.blocks = L ++ b :: R) (hL : ∀ x ∈ L, x.addr ≠ b.addr)
    (hsmall : ¬ DSIZE + OVERHEAD ≤ b.size - asize)
    (hc : s.freecount = s.freelist.length) (hm : b.addr ∈ s.freelist) :
    place s b.addr asize =
      { s with
          blocks := L ++ (⟨b.addr, b.size, true⟩ : Block) :: R,
          freelist := s.freelist.erase b.addr,
          freecount := s.freecount - 1 } := by
  unfold place
  rw [allocate_block_spec s b.addr hc hm]
  simp only [hs, placeBlocks_whole L b R asize hL hsmall]

/-! Characterisation of find_fit. -/

theorem find_fit_loop_some {s : Heap} {asize : Nat} {l : List Nat} {bp : Nat}
    (h : find_fit_loop s asize l = some bp) :
    bp ∈ l ∧ (hdrGet s bp).alloc = false ∧ asize ≤ (hdrGet s bp).size := by
  induction l with
  | nil => simp [find_fit_loop] at h
  | cons a t ih =>
    rw [find_fit_loop] at h
    split at h
    · rename_i hcond
      injection h with h2
      subst h2
      exact ⟨List.mem_cons_self _ _, hcond.1, hcond.2⟩
    · have := ih h
      exact ⟨List.mem_cons_of_mem a this.1, this.2⟩

theorem find_fit_some {s : Heap} {asize : Nat} {bp : Nat}
    (h : find_fit s asize = some bp) :
    bp ∈ s.freelist ∧ (hdrGet s bp).alloc = false ∧ asize ≤ (hdrGet s bp).size := by
  unfold find_fit at h
  split at h
  · cases h
  · exact find_fit_loop_some h

theorem find_fit_loop_spec (s : Heap) (asize : Nat) (l : List Nat)
    (hfree : ∀ a ∈ l, (hdrGet s a).alloc = false) :
    find_fit_loop s asize l = l.find? (fun a => asize ≤ (hdrGet s a).size) := by
  induction l with
  | nil => rfl
  | cons a t ih =>
    have ha : (hdrGet s a).alloc = false := hfree a (List.mem_cons_self a t)
    have ht : ∀ z ∈ t, (hdrGet s z).alloc = false :=
      fun z hz => hfree z (List.mem_cons_of_mem a hz)
    rw [find_fit_loop, List.find?]
    by_cases hle : asize ≤ (hdrGet s a).size
    · simp [ha, hle]
    · simp [ha, hle, ih ht]

/-- Chain shape of a run with a distinguished middle block. -/
theorem addrChain_middle (a : Nat) (L : List Block) (x : Block) (R : List Block) :
    addrChain a (L ++ x :: R) =
      (addrChain a L && (x.addr == a + sumSizes L) &&
        addrChain (a + sumSizes L + x.size) R) := by
  rw [addrChain_append, addrChain_cons, Bool.and_assoc]

theorem noAdjFree_cons (x : Block) (R : List Block) :
    noAdjFree (x :: R) = ((x.alloc || headAlloc R) && noAdjFree R) := by
  cases R with
  | nil => simp [headAlloc, sentinel]
  | cons m R2 => simp [noAdjFree_cons_cons, headAlloc]

theorem noAdjFree_middle (L : List Block) (x : Block) (R : List Block) :
    noAdjFree (L ++ x :: R) =
      (noAdjFree L && ((lastAlloc L || x.alloc) &&
        ((x.alloc || headAlloc R) && noAdjFree R))) := by
  rw [noAdjFree_append, noAdjFree_cons, headAlloc_cons]
  cases noAdjFree L <;> cases noAdjFree R <;> cases lastAlloc L <;>
    cases x.alloc <;> cases headAlloc R <;> rfl

/-- Precondition of coalesce, established by both of its callers (mm_free
on a just-cleared block, extend_heap on the just-formatted new block): the
heap is consistent except that the block at `b` is marked free while not
yet linked into the free list, and adjacency is only allowed to fail at
`b` itself. -/
structure PreCoal (s : Heap) (L : List Block) (b : Block) (R : List Block) : Prop where
  hs : s.blocks = L ++ b :: R
  hfree : b.alloc = false
  base_align : s.base % 8 = 0
  chain : addrChain (s.base + 4 * WSIZE) s.blocks = true
  sizes : ∀ c ∈ s.blocks, DSIZE + OVERHEAD ≤ c.size ∧ c.size % 8 = 0
  nodup : s.freelist.Nodup
  mem_free : ∀ a ∈ s.freelist, a ∈ freeAddrs s
  free_mem : ∀ c ∈ s.blocks, c.alloc = false → c.addr ≠ b.addr → c.addr ∈ s.freelist
  notin : b.addr ∉ s.freelist
  nadj : noAdjFree (L ++ (⟨b.addr, b.size, true⟩ : Block) :: R) = true
  count : s.freecount = s.freelist.length

/-- What coalesce guarantees: a consistent state, unchanged base and byte
footprint, the merged block present, free and at least as large as the
input block, its address at the head of the free list, and every
allocated block untouched. -/
structure CoalesceOut (s : Heap) (b : Block) (out : Heap × Nat) : Prop where
  inv : Inv out.1
  base_eq : out.1.base = s.base
  sum_eq : sumSizes out.1.blocks = sumSizes s.blocks
  merged : ∃ sz, (⟨out.2, sz, false⟩ : Block) ∈ out.1.blocks ∧ b.size ≤ sz
  head : ∃ rest, out.1.freelist = out.2 :: rest
  keep : ∀ c ∈ s.blocks, c.alloc = true → c ∈ out.1.blocks

theorem block_eta_free {b : Block} (h : b.alloc = false) :
    (⟨b.addr, b.size, false⟩ : Block) = b := by
  cases b
  simp only at h
  subst h
  rfl

/-- coalesce establishes the full invariant from its callers' precondition,
with the merged block free, at least as large as the input block, and at
the head of the free list; byte footprint, base and every allocated block
are untouched. -/
theorem coalesce_inv (s : Heap) (L : List Block) (b : Block) (R : List Block)
    (h : PreCoal s L b R) : CoalesceOut s b (coalesce s b.addr) := by
  obtain ⟨hs, hfree, hbase, hchain, hsz, hnodup, hmemf, hfmem, hnotin, hnadj, hcount⟩ := h
  have hmemb : b ∈ s.blocks := by rw [hs]; simp
  have hbsz := hsz b hmemb
  simp only [DSIZE, OVERHEAD] at hbsz
  -- chain decomposition
  have hchain' := hchain
  rw [hs, addrChain_middle, Bool.and_eq_true, Bool.and_eq_true, beq_iff_eq] at hchain'
  obtain ⟨⟨hchL, haddr⟩, hchR0⟩ := hchain'
  have hchR : addrChain (b.addr + b.size) R = true := by
    rw [haddr]
    exact hchR0
  have hLb : ∀ x ∈ L, x.addr + x.size ≤ b.addr := by
    intro x hx
    have hb2 := addrChain_mem_bounds hchL hx
    omega
  have hmemLs : ∀ x ∈ L, x ∈ s.blocks := by
    intro x hx
    rw [hs]
    exact List.mem_append_left _ hx
  have hmemRs : ∀ y ∈ R, y ∈ s.blocks := by
    intro y hy
    rw [hs]
    exact List.mem_append_right _ (List.mem_cons_of_mem _ hy)
  have hLlt : ∀ x ∈ L, x.addr < b.addr := by
    intro x hx
    have h1 := hLb x hx
    have h2 := (hsz x (hmemLs x hx)).1
    simp only [DSIZE, OVERHEAD] at h2
    omega
  have hLne : ∀ x ∈ L, x.addr ≠ b.addr := fun x hx => Nat.ne_of_lt (hLlt x hx)
  have hRgt : ∀ y ∈ R, b.addr < y.addr := by
    intro y hy
    have h1 := (addrChain_mem_bounds hchR hy).1
    omega
  -- adjacency decomposition around b
  have hnadj' := hnadj
  rw [noAdjFree_middle, Bool.and_eq_true, Bool.and_eq_true, Bool.and_eq_true] at hnadj'
  obtain ⟨hadjL, _, _, hadjR⟩ := hnadj'
  by_cases hPA : lastAlloc L = true
  · by_cases hNA : headAlloc R = true
    · -- Case 1: both neighbours allocated
      rw [coalesce_case1 s L b R hs hLne hPA hNA]
      refine ⟨?_, rfl, rfl, ⟨b.size, ?_, Nat.le_refl _⟩, ⟨s.freelist, rfl⟩, fun c hc _ => hc⟩
      · refine ⟨hbase, hchain, hsz, List.nodup_cons.2 ⟨hnotin, hnodup⟩, ?_, ?_, ?_, ?_⟩
        · intro a ha
          rcases List.mem_cons.1 ha with rfl | ha
          · exact mem_freeAddrs.2 ⟨b, hmemb, rfl, hfree⟩
          · exact hmemf a ha
        · intro c hc hcf
          by_cases hcb : c.addr = b.addr
          · rw [hcb]
            exact List.mem_cons_self _ _
          · exact List.mem_cons_of_mem _ (hfmem c hc hcf hcb)
        · rw [hs, noAdjFree_middle]
          simp [hadjL, hadjR, hPA, hNA]
        · show s.freecount + 1 = ((b.addr :: s.freelist).length : Int)
          rw [List.length_cons]
          omega
      · rw [block_eta_free hfree, hs]
        simp
    · -- Case 2: next free, previous allocated
      cases R with
      | nil => exact absurd rfl hNA
      | cons n R2 =>
        have hnfree : n.alloc = false := by
          revert hNA
          simp [headAlloc]
        have hmemn : n ∈ s.blocks := hmemRs n (List.mem_cons_self _ _)
        have hnsz := hsz n hmemn
        simp only [DSIZE, OVERHEAD] at hnsz
        have hchRn := hchR
        rw [addrChain_cons, Bool.and_eq_true, beq_iff_eq] at hchRn
        obtain ⟨hnaddr, hchR2⟩ := hchRn
        have hnne : n.addr ≠ b.addr := by omega
        have hnmem : n.addr ∈ s.freelist := hfmem n hmemn hnfree hnne
        have hadjn := hadjR
        rw [noAdjFree_cons, Bool.and_eq_true] at hadjn
        obtain ⟨hR2head, hadjR2⟩ := hadjn
        have hR2h : headAlloc R2 = true := by
          rcases Bool.or_eq_true_iff.1 hR2head with h1 | h1
          · rw [hnfree] at h1
            cases h1
          · exact h1
        rw [coalesce_case2 s L b n R2 hs hLne hPA hnfree hcount hnmem]
        have hposf : 0 < s.freelist.length := List.length_pos.2 (List.ne_nil_of_mem hnmem)
        refine ⟨?_, rfl, ?_, ⟨b.size + n.size, by simp, Nat.le_add_right _ _⟩,
          ⟨s.freelist.erase n.addr, rfl⟩, ?_⟩
        · refine ⟨hbase, ?_, ?_, ?_, ?_, ?_, ?_, ?_⟩
          · -- chain
            rw [addrChain_middle, Bool.and_eq_true, Bool.and_eq_true, beq_iff_eq]
            refine ⟨⟨hchL, haddr⟩, ?_⟩
            have heq : s.base + 4 * WSIZE + sumSizes L + (b.size + n.size) =
                b.addr + b.size + n.size := by omega
            rw [heq]
            exact hchR2
          · -- sizes
            intro c hc
            rcases List.mem_append.1 hc with hcl | hcr
            · exact hsz c (hmemLs c hcl)
            · rcases List.mem_cons.1 hcr with rfl | hcr2
              · constructor
                · simp only [DSIZE, OVERHEAD]
                  omega
                · simp
                  omega
              · exact hsz c (hmemRs c (List.mem_cons_of_mem _ hcr2))
          · -- nodup
            refine List.nodup_cons.2 ⟨?_, hnodup.erase _⟩
            intro hmem
            exact hnotin (List.mem_of_mem_erase hmem)
          · -- mem_free
            intro a ha
            rcases List.mem_cons.1 ha with rfl | ha2
            · exact mem_freeAddrs.2 ⟨⟨b.addr, b.size + n.size, false⟩, by simp, rfl, rfl⟩
            · have ham := List.mem_of_mem_erase ha2
              have hann : a ≠ n.addr := (hnodup.mem_erase_iff.1 ha2).1
              have hanb : a ≠ b.addr := fun hh => hnotin (hh ▸ ham)
              obtain ⟨c, hc, hca, hcal⟩ := mem_freeAddrs.1 (hmemf a ham)
              refine mem_freeAddrs.2 ⟨c, ?_, hca, hcal⟩
              rw [hs] at hc
              rcases List.mem_append.1 hc with hcl | hcr
              · exact List.mem_append_left _ hcl
              · rcases List.mem_cons.1 hcr with rfl | hcr2
                · exact absurd hca (Ne.symm hanb)
                · rcases List.mem_cons.1 hcr2 with rfl | hcr3
                  · exact absurd hca (Ne.symm hann)
                  · exact List.mem_append_right _ (List.mem_cons_of_mem _ hcr3)
          · -- free_mem
            intro c hc hcal
            rcases List.mem_append.1 hc with hcl | hcr
            · have h1 := hfmem c (hmemLs c hcl) hcal (hLne c hcl)
              have h2 : c.addr ≠ n.addr := by
                have := hLlt c hcl
                omega
              exact List.mem_cons_of_mem _ ((List.mem_erase_of_ne h2).2 h1)
            · rcases List.mem_cons.1 hcr with rfl | hcr2
              · exact List.mem_cons_self _ _
              · have hcR : c ∈ R2 := hcr2
                have hcmem : c ∈ s.blocks :=
                  hmemRs c (List.mem_cons_of_mem _ hcR)
                have hcgt : b.addr + b.size + n.size ≤ c.addr :=
                  (addrChain_mem_bounds hchR2 hcR).1
                have h1 := hfmem c hcmem hcal (by omega)
                have h2 : c.addr ≠ n.addr := by omega
                exact List.mem_cons_of_mem _ ((List.mem_erase_of_ne h2).2 h1)
          · -- nadj
            rw [noAdjFree_middle]
            simp [hadjL, hadjR2, hPA, hR2h]
          · -- count
            show s.freecount = ((b.addr :: s.freelist.erase n.addr).length : Int)
            rw [List.length_cons, List.length_erase_of_mem hnmem]
            omega
        · -- sum_eq
          rw [hs]
          simp only [sumSizes_append, sumSizes_cons, sumSizes_nil]
          omega
        · -- keep
          intro c hc hcal
          rw [hs] at hc
          rcases List.mem_append.1 hc with hcl | hcr
          · exact List.mem_append_left _ hcl
          · rcases List.mem_cons.1 hcr with rfl | hcr2
            · rw [hfree] at hcal
              cases hcal
            · rcases List.mem_cons.1 hcr2 with rfl | hcr3
              · rw [hnfree] at hcal
                cases hcal
              · exact List.mem_append_right _ (List.mem_cons_of_mem _ hcr3)
  · -- previous neighbour free
    rcases List.eq_nil_or_concat L with rfl | ⟨L2, p, rfl⟩
    · exact absurd rfl hPA
    · simp only [List.concat_eq_append] at hs hLne hLb hLlt hmemLs hadjL hchL haddr hPA
      have hpfree : p.alloc = false := by
        revert hPA
        simp [lastAlloc]
      have hmemp : p ∈ s.blocks := hmemLs p (by simp)
      have hpsz := hsz p hmemp
      simp only [DSIZE, OVERHEAD] at hpsz
      have hchLp := hchL
      rw [addrChain_append, Bool.and_eq_true, addrChain_cons] at hchLp
      simp only [addrChain_nil, Bool.and_true, beq_iff_eq] at hchLp
      obtain ⟨hchL2, hpaddr⟩ := hchLp
      have hpend : p.addr + p.size = b.addr := by
        have hsum : sumSizes (L2 ++ [p]) = sumSizes L2 + p.size := by
          simp [sumSizes_append]
        omega
      have hpne : p.addr ≠ b.addr := by omega
      have hpmem : p.addr ∈ s.freelist := hfmem p hmemp hpfree hpne
      have hadjLp := hadjL
      rw [noAdjFree_append, Bool.and_eq_true, Bool.and_eq_true] at hadjLp
      obtain ⟨⟨hadjL2, _⟩, hjoin⟩ := hadjLp
      have hL2last : lastAlloc L2 = true := by
        rcases Bool.or_eq_true_iff.1 hjoin with h1 | h1
        · exact h1
        · rw [headAlloc_cons, hpfree] at h1
          cases h1
      have hL2lt : ∀ x ∈ L2, x.addr + x.size ≤ p.addr := by
        intro x hx
        have := addrChain_mem_bounds hchL2 hx
        omega
      have hL2p : ∀ x ∈ L2, x.addr < p.addr := by
        intro x hx
        have h1 := hL2lt x hx
        have h2 := (hsz x (hmemLs x (List.mem_append_left _ hx))).1
        simp only [DSIZE, OVERHEAD] at h2
        omega
      have hposf : 0 < s.freelist.length := List.length_pos.2 (List.ne_nil_of_mem hpmem)
      by_cases hNA : headAlloc R = true
      · -- Case 3: previous free, next allocated
        rw [coalesce_case3 s L2 p b R hs hLne hpfree hNA hcount hpmem]
        refine ⟨?_, rfl, ?_, ⟨b.size + p.size, by simp, Nat.le_add_right _ _⟩,
          ⟨s.freelist.erase p.addr, rfl⟩, ?_⟩
        · refine ⟨hbase, ?_, ?_, ?_, ?_, ?_, ?_, ?_⟩
          · -- chain
            rw [addrChain_middle, Bool.and_eq_true, Bool.and_eq_true, beq_iff_eq]
            refine ⟨⟨hchL2, ?_⟩, ?_⟩
            · show p.addr = s.base + 4 * WSIZE + sumSizes L2
              omega
            · have heq : s.base + 4 * WSIZE + sumSizes L2 + (b.size + p.size) =
                  b.addr + b.size := by omega
              rw [heq]
              exact hchR
          · -- sizes
            intro c hc
            rcases List.mem_append.1 hc with hcl | hcr
            · exact hsz c (hmemLs c (List.mem_append_left _ hcl))
            · rcases List.mem_cons.1 hcr with rfl | hcr2
              · constructor
                · simp only [DSIZE, OVERHEAD]
                  omega
                · simp
                  omega
              · exact hsz c (hmemRs c hcr2)
          · -- nodup
            refine List.nodup_cons.2 ⟨?_, hnodup.erase _⟩
            intro hmem
            exact ((hnodup.mem_erase_iff).1 hmem).1 rfl
          · -- mem_free
            intro a ha
            rcases List.mem_cons.1 ha with rfl | ha2
            · exact mem_freeAddrs.2 ⟨⟨p.addr, b.size + p.size, false⟩, by simp, rfl, rfl⟩
            · have ham := List.mem_of_mem_erase ha2
              have hanp : a ≠ p.addr := (hnodup.mem_erase_iff.1 ha2).1
              have hanb : a ≠ b.addr := fun hh => hnotin (hh ▸ ham)
              obtain ⟨c, hc, hca, hcal⟩ := mem_freeAddrs.1 (hmemf a ham)
              refine mem_freeAddrs.2 ⟨c, ?_, hca, hcal⟩
              rw [hs] at hc
              rcases List.mem_append.1 hc with hcl | hcr
              · rcases List.mem_append.1 hcl with hcl2 | hcp
                · exact List.mem_append_left _ hcl2
                · rw [List.mem_singleton.1 hcp] at hca
                  exact absurd hca (Ne.symm hanp)
              · rcases List.mem_cons.1 hcr with rfl | hcr2
                · exact absurd hca (Ne.symm hanb)
                · exact List.mem_append_right _ (List.mem_cons_of_mem _ hcr2)
          · -- free_mem
            intro c hc hcal
            rcases List.mem_append.1 hc with hcl | hcr
            · have hcmem : c ∈ s.blocks := hmemLs c (List.mem_append_left _ hcl)
              have h2 : c.addr ≠ p.addr := by
                have := hL2p c hcl
                omega
              have h3 : c.addr ≠ b.addr := by
                have := hL2lt c hcl
                omega
              have h1 := hfmem c hcmem hcal h3
              exact List.mem_cons_of_mem _ ((List.mem_erase_of_ne h2).2 h1)
            · rcases List.mem_cons.1 hcr with rfl | hcr2
              · exact List.mem_cons_self _ _
              · have hcmem : c ∈ s.blocks := hmemRs c hcr2
                have hcgt := hRgt c hcr2
                have h1 := hfmem c hcmem hcal (by omega)
                have h2 : c.addr ≠ p.addr := by omega
                exact List.mem_cons_of_mem _ ((List.mem_erase_of_ne h2).2 h1)
          · -- nadj
            rw [noAdjFree_middle]
            simp [hadjL2, hadjR, hL2last, hNA]
          · -- count
            show s.freecount = ((p.addr :: s.freelist.erase p.addr).length : Int)
            rw [List.length_cons, List.length_erase_of_mem hpmem]
            omega
        · -- sum_eq
          rw [hs]
          simp only [sumSizes_append, sumSizes_cons, sumSizes_nil]
          omega
        · -- keep
          intro c hc hcal
          rw [hs] at hc
          rcases List.mem_append.1 hc with hcl | hcr
          · rcases List.mem_append.1 hcl with hcl2 | hcp
            · exact List.mem_append_left _ hcl2
            · rw [List.mem_singleton.1 hcp] at hcal
              rw [hpfree] at hcal
              cases hcal
          · rcases List.mem_cons.1 hcr with rfl | hcr2
            · rw [hfree] at hcal
              cases hcal
            · exact List.mem_append_right _ (List.mem_cons_of_mem _ hcr2)
      · -- Case 4: both free
        cases R with
        | nil => exact absurd rfl hNA
        | cons n R2 =>
          have hnfree : n.alloc = false := by
            revert hNA
            simp [headAlloc]
          have hmemn : n ∈ s.blocks := hmemRs n (List.mem_cons_self _ _)
          have hnsz := hsz n hmemn
          simp only [DSIZE, OVERHEAD] at hnsz
          have hchRn := hchR
          rw [addrChain_cons, Bool.and_eq_true, beq_iff_eq] at hchRn
          obtain ⟨hnaddr, hchR2⟩ := hchRn
          have hnne : n.addr ≠ b.addr := by omega
          have hnmem : n.addr ∈ s.freelist := hfmem n hmemn hnfree hnne
          have hadjn := hadjR
          rw [noAdjFree_cons, Bool.and_eq_true] at hadjn
          obtain ⟨hR2head, hadjR2⟩ := hadjn
          have hR2h : headAlloc R2 = true := by
            rcases Bool.or_eq_true_iff.1 hR2head with h1 | h1
            · rw [hnfree] at h1
              cases h1
            · exact h1
          have hpn : p.addr ≠ n.addr := by omega
          rw [coalesce_case4 s L2 p b n R2 hs hLne hpfree hnfree hcount hpmem hnmem hpn]
          have hmemp2 : p.addr ∈ s.freelist.erase n.addr :=
            (List.mem_erase_of_ne hpn).2 hpmem
          have hpos2 : 0 < (s.freelist.erase n.addr).length :=
            List.length_pos.2 (List.ne_nil_of_mem hmemp2)
          refine ⟨?_, rfl, ?_,
            ⟨b.size + (p.size + n.size), by simp, by omega⟩,
            ⟨(s.freelist.erase n.addr).erase p.addr, rfl⟩, ?_⟩
          · refine ⟨hbase, ?_, ?_, ?_, ?_, ?_, ?_, ?_⟩
            · -- chain
              rw [addrChain_middle, Bool.and_eq_true, Bool.and_eq_true, beq_iff_eq]
              refine ⟨⟨hchL2, ?_⟩, ?_⟩
              · show p.addr = s.base + 4 * WSIZE + sumSizes L2
                omega
              · have heq : s.base + 4 * WSIZE + sumSizes L2 + (b.size + (p.size + n.size)) =
                    b.addr + b.size + n.size := by omega
                rw [heq]
                exact hchR2
            · -- sizes
              intro c hc
              rcases List.mem_append.1 hc with hcl | hcr
              · exact hsz c (hmemLs c (List.mem_append_left _ hcl))
              · rcases List.mem_cons.1 hcr with rfl | hcr2
                · constructor
                  · simp only [DSIZE, OVERHEAD]
                    omega
                  · simp
                    omega
                · exact hsz c (hmemRs c (List.mem_cons_of_mem _ hcr2))
            · -- nodup
              refine List.nodup_cons.2 ⟨?_, (hnodup.erase _).erase _⟩
              intro hmem
              exact ((hnodup.erase _).mem_erase_iff.1 hmem).1 rfl
            · -- mem_free
              intro a ha
              rcases List.mem_cons.1 ha with rfl | ha2
              · exact mem_freeAddrs.2 ⟨⟨p.addr, b.size + (p.size + n.size), false⟩, by simp, rfl, rfl⟩
              · have ham1 := List.mem_of_mem_erase ha2
                have hanp : a ≠ p.addr := ((hnodup.erase _).mem_erase_iff.1 ha2).1
                have ham := List.mem_of_mem_erase ham1
                have hann : a ≠ n.addr := (hnodup.mem_erase_iff.1 ham1).1
                have hanb : a ≠ b.addr := fun hh => hnotin (hh ▸ ham)
                obtain ⟨c, hc, hca, hcal⟩ := mem_freeAddrs.1 (hmemf a ham)
                refine mem_freeAddrs.2 ⟨c, ?_, hca, hcal⟩
                rw [hs] at hc
                rcases List.mem_append.1 hc with hcl | hcr
                · rcases List.mem_append.1 hcl with hcl2 | hcp
                  · exact List.mem_append_left _ hcl2
                  · rw [List.mem_singleton.1 hcp] at hca
                    exact absurd hca (Ne.symm hanp)
                · rcases List.mem_cons.1 hcr with rfl | hcr2
                  · exact absurd hca (Ne.symm hanb)
                  · rcases List.mem_cons.1 hcr2 with rfl | hcr3
                    · exact absurd hca (Ne.symm hann)
                    · exact List.mem_append_right _ (List.mem_cons_of_mem _ hcr3)
            · -- free_mem
              intro c hc hcal
              rcases List.mem_append.1 hc with hcl | hcr
              · have hcmem : c ∈ s.blocks := hmemLs c (List.mem_append_left _ hcl)
                have h2 : c.addr ≠ p.addr := by
                  have := hL2p c hcl
                  omega
                have h3 : c.addr ≠ b.addr := by
                  have := hL2lt c hcl
                  omega
                have h4 : c.addr ≠ n.addr := by
                  have := hL2lt c hcl
                  omega
                have h1 := hfmem c hcmem hcal h3
                exact List.mem_cons_of_mem _
                  ((List.mem_erase_of_ne h2).2 ((List.mem_erase_of_ne h4).2 h1))
              · rcases List.mem_cons.1 hcr with rfl | hcr2
                · exact List.mem_cons_self _ _
                · have hcmem : c ∈ s.blocks := hmemRs c (List.mem_cons_of_mem _ hcr2)
                  have hcgt : b.addr + b.size + n.size ≤ c.addr :=
                    (addrChain_mem_bounds hchR2 hcr2).1
                  have h1 := hfmem c hcmem hcal (by omega)
                  have h2 : c.addr ≠ p.addr := by omega
                  have h4 : c.addr ≠ n.addr := by omega
                  exact List.mem_cons_of_mem _
                    ((List.mem_erase_of_ne h2).2 ((List.mem_erase_of_ne h4).2 h1))
            · -- nadj
              rw [noAdjFree_middle]
              simp [hadjL2, hadjR2, hL2last, hR2h]
            · -- count
              show s.freecount - 1 =
                ((p.addr :: (s.freelist.erase n.addr).erase p.addr).length : Int)
              rw [List.length_cons, List.length_erase_of_mem hmemp2,
                List.length_erase_of_mem hnmem]
              have hlen2 := List.length_erase_of_mem hnmem
              omega
          · -- sum_eq
            rw [hs]
            simp only [sumSizes_append, sumSizes_cons, sumSizes_nil]
            omega
          · -- keep
            intro c hc hcal
            rw [hs] at hc
            rcases List.mem_append.1 hc with hcl | hcr
            · rcases List.mem_append.1 hcl with hcl2 | hcp
              · exact List.mem_append_left _ hcl2
              · rw [List.mem_singleton.1 hcp] at hcal
                rw [hpfree] at hcal
                cases hcal
            · rcases List.mem_cons.1 hcr with rfl | hcr2
              · rw [hfree] at hcal
                cases hcal
              · rcases List.mem_cons.1 hcr2 with rfl | hcr3
                · rw [hnfree] at hcal
                  cases hcal
                · exact List.mem_append_right _ (List.mem_cons_of_mem _ hcr3)

/-- place preserves the invariant and the heap footprint, and touches no
block other than the one it allocates (and its split-off remainder). -/
theorem place_inv (s : Heap) (L : List Block) (b : Block) (R : List Block) (asize : Nat)
    (hI : Inv s) (hs : s.blocks = L ++ b :: R) (hfree : b.alloc = false)
    (hasz : DSIZE + OVERHEAD ≤ asize) (hamod : asize % 8 = 0) (hale : asize ≤ b.size) :
    Inv (place s b.addr asize) ∧
    (place s b.addr asize).base = s.base ∧
    sumSizes (place s b.addr asize).blocks = sumSizes s.blocks ∧
    (∀ c ∈ s.blocks, c.addr ≠ b.addr → c ∈ (place s b.addr asize).blocks) := by
  have hmemb : b ∈ s.blocks := by rw [hs]; simp
  have hbsz := hI.sizes b hmemb
  simp only [DSIZE, OVERHEAD] at hbsz hasz
  have hbm : b.addr ∈ s.freelist := hI.free_mem b hmemb hfree
  -- chain decomposition
  have hchain' := hI.chain
  rw [hs, addrChain_middle, Bool.and_eq_true, Bool.and_eq_true, beq_iff_eq] at hchain'
  obtain ⟨⟨hchL, haddr⟩, hchR0⟩ := hchain'
  have hchR : addrChain (b.addr + b.size) R = true := by
    rw [haddr]
    exact hchR0
  have hmemLs : ∀ x ∈ L, x ∈ s.blocks := by
    intro x hx
    rw [hs]
    exact List.mem_append_left _ hx
  have hmemRs : ∀ y ∈ R, y ∈ s.blocks := by
    intro y hy
    rw [hs]
    exact List.mem_append_right _ (List.mem_cons_of_mem _ hy)
  have hLlt : ∀ x ∈ L, x.addr + x.size ≤ b.addr ∧ x.addr < b.addr := by
    intro x hx
    have h1 := addrChain_mem_bounds hchL hx
    have h2 := (hI.sizes x (hmemLs x hx)).1
    simp only [DSIZE, OVERHEAD] at h2
    omega
  have hLne : ∀ x ∈ L, x.addr ≠ b.addr := fun x hx => Nat.ne_of_lt (hLlt x hx).2
  have hRgt : ∀ y ∈ R, b.addr + b.size ≤ y.addr := by
    intro y hy
    exact (addrChain_mem_bounds hchR hy).1
  -- adjacency decomposition
  have hnadj' := hI.nadj
  rw [hs, noAdjFree_middle, Bool.and_eq_true, Bool.and_eq_true, Bool.and_eq_true] at hnadj'
  obtain ⟨hadjL, hjL, hjR, hadjR⟩ := hnadj'
  have hheadR : headAlloc R = true := by
    rcases Bool.or_eq_true_iff.1 hjR with h1 | h1
    · rw [hfree] at h1
      cases h1
    · exact h1
  -- no block and hence no free-list entry sits strictly inside b
  have hinterior : ∀ a, b.addr < a → a < b.addr + b.size → a ∉ s.freelist := by
    intro a h1 h2 hmem
    obtain ⟨c, hc, hca, hcal⟩ := mem_freeAddrs.1 (hI.mem_free a hmem)
    rw [hs] at hc
    rcases List.mem_append.1 hc with hcl | hcr
    · have := (hLlt c hcl).2
      omega
    · rcases List.mem_cons.1 hcr with rfl | hcr2
      · omega
      · have := hRgt c hcr2
        omega
  have hposf : 0 < s.freelist.length := List.length_pos.2 (List.ne_nil_of_mem hbm)
  by_cases hbig : DSIZE + OVERHEAD ≤ b.size - asize
  · -- split
    rw [place_split_spec s L b R asize hs hLne hbig hI.count hbm]
    have hremni : b.addr + asize ∉ s.freelist := by
      apply hinterior
      · simp only [DSIZE, OVERHEAD] at hbig
        omega
      · simp only [DSIZE, OVERHEAD] at hbig
        omega
    refine ⟨⟨hI.base_align, ?_, ?_, ?_, ?_, ?_, ?_, ?_⟩, rfl, ?_, ?_⟩
    · -- chain
      show addrChain (s.base + 4 * WSIZE)
        (L ++ (⟨b.addr, asize, true⟩ : Block) ::
          (⟨b.addr + asize, b.size - asize, false⟩ : Block) :: R) = true
      rw [addrChain_middle, Bool.and_eq_true, Bool.and_eq_true, beq_iff_eq]
      refine ⟨⟨hchL, haddr⟩, ?_⟩
      rw [addrChain_cons, Bool.and_eq_true, beq_iff_eq]
      constructor
      · show b.addr + asize = s.base + 4 * WSIZE + sumSizes L + asize
        omega
      · show addrChain (s.base + 4 * WSIZE + sumSizes L + asize + (b.size - asize)) R = true
        have heq : s.base + 4 * WSIZE + sumSizes L + asize + (b.size - asize) =
            b.addr + b.size := by omega
        rw [heq]
        exact hchR
    · -- sizes
      intro c hc
      rcases List.mem_append.1 hc with hcl | hcr
      · exact hI.sizes c (hmemLs c hcl)
      · rcases List.mem_cons.1 hcr with rfl | hcr2
        · refine ⟨?_, ?_⟩
          · show DSIZE + OVERHEAD ≤ asize
            simp only [DSIZE, OVERHEAD]
            omega
          · show asize % 8 = 0
            omega
        · rcases List.mem_cons.1 hcr2 with rfl | hcr3
          · refine ⟨?_, ?_⟩
            · show DSIZE + OVERHEAD ≤ b.size - asize
              exact hbig
            · show (b.size - asize) % 8 = 0
              omega
          · exact hI.sizes c (hmemRs c hcr3)
    · -- nodup
      exact List.nodup_cons.2
        ⟨fun hmem => hremni (List.mem_of_mem_erase hmem), hI.nodup.erase _⟩
    · -- mem_free
      intro a ha
      rcases List.mem_cons.1 ha with rfl | ha2
      · exact mem_freeAddrs.2
          ⟨⟨b.addr + asize, b.size - asize, false⟩, by simp, rfl, rfl⟩
      · have ham := List.mem_of_mem_erase ha2
        have hanb : a ≠ b.addr := (hI.nodup.mem_erase_iff.1 ha2).1
        obtain ⟨c, hc, hca, hcal⟩ := mem_freeAddrs.1 (hI.mem_free a ham)
        refine mem_freeAddrs.2 ⟨c, ?_, hca, hcal⟩
        rw [hs] at hc
        rcases List.mem_append.1 hc with hcl | hcr
        · exact List.mem_append_left _ hcl
        · rcases List.mem_cons.1 hcr with rfl | hcr2
          · exact absurd hca (Ne.symm hanb)
          · exact List.mem_append_right _
              (List.mem_cons_of_mem _ (List.mem_cons_of_mem _ hcr2))
    · -- free_mem
      intro c hc hcal
      rcases List.mem_append.1 hc with hcl | hcr
      · have h1 := hI.free_mem c (hmemLs c hcl) hcal
        have h2 : c.addr ≠ b.addr := hLne c hcl
        exact List.mem_cons_of_mem _ ((List.mem_erase_of_ne h2).2 h1)
      · rcases List.mem_cons.1 hcr with rfl | hcr2
        · simp at hcal
        · rcases List.mem_cons.1 hcr2 with rfl | hcr3
          · exact List.mem_cons_self _ _
          · have h1 := hI.free_mem c (hmemRs c hcr3) hcal
            have h2 : c.addr ≠ b.addr := by
              have := hRgt c hcr3
              omega
            exact List.mem_cons_of_mem _ ((List.mem_erase_of_ne h2).2 h1)
    · -- nadj
      show noAdjFree (L ++ (⟨b.addr, asize, true⟩ : Block) ::
        (⟨b.addr + asize, b.size - asize, false⟩ : Block) :: R) = true
      rw [noAdjFree_middle, noAdjFree_cons]
      simp [hadjL, hadjR, hheadR]
    · -- count
      show s.freecount = (((b.addr + asize) :: s.freelist.erase b.addr).length : Int)
      rw [List.length_cons, List.length_erase_of_mem hbm]
      have := hI.count
      omega
    · -- sum_eq
      rw [hs]
      simp only [sumSizes_append, sumSizes_cons, sumSizes_nil]
      omega
    · -- frame
      intro c hc hcb
      rw [hs] at hc
      rcases List.mem_append.1 hc with hcl | hcr
      · exact List.mem_append_left _ hcl
      · rcases List.mem_cons.1 hcr with rfl | hcr2
        · exact absurd rfl hcb
        · exact List.mem_append_right _
            (List.mem_cons_of_mem _ (List.mem_cons_of_mem _ hcr2))
  · -- no split
    rw [place_whole_spec s L b R asize hs hLne hbig hI.count hbm]
    refine ⟨⟨hI.base_align, ?_, ?_, hI.nodup.erase _, ?_, ?_, ?_, ?_⟩, rfl, ?_, ?_⟩
    · -- chain
      show addrChain (s.base + 4 * WSIZE)
        (L ++ (⟨b.addr, b.size, true⟩ : Block) :: R) = true
      rw [addrChain_middle, Bool.and_eq_true, Bool.and_eq_true, beq_iff_eq]
      refine ⟨⟨hchL, haddr⟩, ?_⟩
      show addrChain (s.base + 4 * WSIZE + sumSizes L + b.size) R = true
      have heq : s.base + 4 * WSIZE + sumSizes L + b.size = b.addr + b.size := by omega
      rw [heq]
      exact hchR
    · -- sizes
      intro c hc
      rcases List.mem_append.1 hc with hcl | hcr
      · exact hI.sizes c (hmemLs c hcl)
      · rcases List.mem_cons.1 hcr with rfl | hcr2
        · exact ⟨hI.sizes b hmemb |>.1, hI.sizes b hmemb |>.2⟩
        · exact hI.sizes c (hmemRs c hcr2)
    · -- mem_free
      intro a ha
      have ham := List.mem_of_mem_erase ha
      have hanb : a ≠ b.addr := (hI.nodup.mem_erase_iff.1 ha).1
      obtain ⟨c, hc, hca, hcal⟩ := mem_freeAddrs.1 (hI.mem_free a ham)
      refine mem_freeAddrs.2 ⟨c, ?_, hca, hcal⟩
      rw [hs] at hc
      rcases List.mem_append.1 hc with hcl | hcr
      · exact List.mem_append_left _ hcl
      · rcases List.mem_cons.1 hcr with rfl | hcr2
        · exact absurd hca (Ne.symm hanb)
        · exact List.mem_append_right _ (List.mem_cons_of_mem _ hcr2)
    · -- free_mem
      intro c hc hcal
      rcases List.mem_append.1 hc with hcl | hcr
      · have h1 := hI.free_mem c (hmemLs c hcl) hcal
        exact (List.mem_erase_of_ne (hLne c hcl)).2 h1
      · rcases List.mem_cons.1 hcr with rfl | hcr2
        · simp at hcal
        · have h1 := hI.free_mem c (hmemRs c hcr2) hcal
          have h2 : c.addr ≠ b.addr := by
            have := hRgt c hcr2
            omega
          exact (List.mem_erase_of_ne h2).2 h1
    · -- nadj
      show noAdjFree (L ++ (⟨b.addr, b.size, true⟩ : Block) :: R) = true
      rw [noAdjFree_middle]
      simp [hadjL, hadjR]
    · -- count
      show s.freecount - 1 = ((s.freelist.erase b.addr).length : Int)
      rw [List.length_erase_of_mem hbm]
      have := hI.count
      omega
    · -- sum_eq
      rw [hs]
      simp only [sumSizes_append, sumSizes_cons, sumSizes_nil]
    · -- frame
      intro c hc hcb
      rw [hs] at hc
      rcases List.mem_append.1 hc with hcl | hcr
      · exact List.mem_append_left _ hcl
      · rcases List.mem_cons.1 hcr with rfl | hcr2
        · exact absurd rfl hcb
        · exact List.mem_append_right _ (List.mem_cons_of_mem _ hcr2)

theorem block_eta_alloc {b : Block} (h : b.alloc = true) :
    (⟨b.addr, b.size, true⟩ : Block) = b := by
  cases b
  simp only at h
  subst h
  rfl

/-- Two blocks of a consistent heap with the same address coincide. -/
theorem Inv.addr_unique {s : Heap} (hI : Inv s) {b1 b2 : Block}
    (h1 : b1 ∈ s.blocks) (h2 : b2 ∈ s.blocks) (he : b1.addr = b2.addr) : b1 = b2 := by
  obtain ⟨L, R, hs, hL, hR⟩ := hI.fetch h1
  rw [hs] at h2
  rcases List.mem_append.1 h2 with hcl | hcr
  · have := (hL b2 hcl).2
    omega
  · rcases List.mem_cons.1 hcr with h | hcr2
    · exact h.symm
    · have := (hR b2 hcr2).2
      omega

theorem map_clear_skip (l : List Block) (bp : Nat) (h : ∀ x ∈ l, x.addr ≠ bp) :
    l.map (fun x => if x.addr == bp then (⟨x.addr, x.size, false⟩ : Block) else x) = l := by
  induction l with
  | nil => rfl
  | cons x t ih =>
    have hx : (x.addr == bp) = false := by
      simpa using h x (List.mem_cons_self x t)
    simp only [List.map_cons, hx, Bool.false_eq_true, if_false,
      ih fun z hz => h z (List.mem_cons_of_mem x hz)]

theorem map_clear (L : List Block) (b : Block) (R : List Block)
    (hL : ∀ x ∈ L, x.addr ≠ b.addr) (hR : ∀ y ∈ R, y.addr ≠ b.addr) :
    (L ++ b :: R).map
        (fun x => if x.addr == b.addr then (⟨x.addr, x.size, false⟩ : Block) else x) =
      L ++ (⟨b.addr, b.size, false⟩ : Block) :: R := by
  rw [List.map_append, List.map_cons, map_clear_skip L b.addr hL,
    map_clear_skip R b.addr hR]
  simp

/-- mm_free preserves the invariant, the base and the byte footprint, and
keeps every other allocated block in place. -/
theorem mm_free_inv (s : Heap) (b : Block) (hI : Inv s) (hb : b ∈ s.blocks)
    (hal : b.alloc = true) :
    Inv (mm_free s b.addr) ∧ (mm_free s b.addr).base = s.base ∧
    sumSizes (mm_free s b.addr).blocks = sumSizes s.blocks ∧
    (∀ c ∈ s.blocks, c.alloc = true → c.addr ≠ b.addr →
      c ∈ (mm_free s b.addr).blocks) := by
  obtain ⟨L, R, hs, hL, hR⟩ := hI.fetch hb
  have hLne : ∀ x ∈ L, x.addr ≠ b.addr := fun x hx => Nat.ne_of_lt (hL x hx).2
  have hRne : ∀ y ∈ R, y.addr ≠ b.addr := fun y hy => (Nat.ne_of_lt (hR y hy).2).symm
  set bF : Block := ⟨b.addr, b.size, false⟩ with hbF
  have hmap : s.blocks.map
      (fun x => if x.addr == b.addr then (⟨x.addr, x.size, false⟩ : Block) else x) =
      L ++ bF :: R := by
    rw [hs]
    exact map_clear L b R hLne hRne
  set s1 : Heap := { s with blocks := L ++ bF :: R } with hs1
  have hfree_unfold : mm_free s b.addr = (coalesce s1 b.addr).1 := by
    unfold mm_free
    rw [hmap]
  have hpre : PreCoal s1 L bF R := by
    refine ⟨rfl, rfl, hI.base_align, ?_, ?_, hI.nodup, ?_, ?_, ?_, ?_, hI.count⟩
    · -- chain: same addresses and sizes as the original run
      have hch := hI.chain
      rw [hs, addrChain_middle] at hch
      show addrChain (s.base + 4 * WSIZE) (L ++ bF :: R) = true
      rw [addrChain_middle]
      exact hch
    · -- sizes
      intro c hc
      rcases List.mem_append.1 hc with hcl | hcr
      · exact hI.sizes c (by rw [hs]; exact List.mem_append_left _ hcl)
      · rcases List.mem_cons.1 hcr with rfl | hcr2
        · exact hI.sizes b hb
        · exact hI.sizes c
            (by rw [hs]; exact List.mem_append_right _ (List.mem_cons_of_mem _ hcr2))
    · -- mem_free
      intro a ha
      obtain ⟨c, hc, hca, hcal⟩ := mem_freeAddrs.1 (hI.mem_free a ha)
      refine mem_freeAddrs.2 ⟨c, ?_, hca, hcal⟩
      rw [hs] at hc
      rcases List.mem_append.1 hc with hcl | hcr
      · exact List.mem_append_left _ hcl
      · rcases List.mem_cons.1 hcr with rfl | hcr2
        · rw [hal] at hcal
          cases hcal
        · exact List.mem_append_right _ (List.mem_cons_of_mem _ hcr2)
    · -- free_mem away from b
      intro c hc hcal hcb
      rcases List.mem_append.1 hc with hcl | hcr
      · exact hI.free_mem c (by rw [hs]; exact List.mem_append_left _ hcl) hcal
      · rcases List.mem_cons.1 hcr with rfl | hcr2
        · exact absurd rfl hcb
        · exact hI.free_mem c
            (by rw [hs]; exact List.mem_append_right _ (List.mem_cons_of_mem _ hcr2)) hcal
    · -- b.addr not yet linked
      intro hmem
      obtain ⟨c, hc, hca, hcal⟩ := mem_freeAddrs.1 (hI.mem_free _ hmem)
      have hcb : c = b := hI.addr_unique hc hb hca
      rw [hcb, hal] at hcal
      cases hcal
    · -- adjacency of the allocated original
      show noAdjFree (L ++ (⟨b.addr, b.size, true⟩ : Block) :: R) = true
      rw [block_eta_alloc hal, ← hs]
      exact hI.nadj
  have hout := coalesce_inv s1 L bF R hpre
  rw [hfree_unfold]
  refine ⟨hout.inv, hout.base_eq.trans rfl, ?_, ?_⟩
  · rw [hout.sum_eq, hs]
    simp [sumSizes_append, sumSizes_cons, hbF]
  · intro c hc hcal hcb
    refine hout.keep c ?_ hcal
    rw [hs] at hc
    show c ∈ L ++ bF :: R
    rcases List.mem_append.1 hc with hcl | hcr
    · exact List.mem_append_left _ hcl
    · rcases List.mem_cons.1 hcr with rfl | hcr2
      · exact absurd rfl hcb
      · exact List.mem_append_right _ (List.mem_cons_of_mem _ hcr2)

/-- The byte count extend_heap obtains: the word count rounded up to an
even number of words. -/
def extWords (words : Nat) : Nat :=
  if words % 2 = 1 then (words + 1) * WSIZE else words * WSIZE

theorem extend_heap_ok_eq (s : Heap) (words : Nat) :
    extend_heap_ok s words =
      coalesce { s with blocks := s.blocks ++ [⟨s.hiWater, extWords words, false⟩] }
        s.hiWater := rfl

theorem extWords_mod8 (w : Nat) : extWords w % 8 = 0 := by
  unfold extWords
  by_cases h : w % 2 = 1 <;> simp only [h, if_true, if_false, WSIZE] <;> omega

theorem extWords_ge (w : Nat) (hw : 4 ≤ w) : DSIZE + OVERHEAD ≤ extWords w := by
  unfold extWords
  by_cases h : w % 2 = 1 <;>
    simp only [h, if_true, if_false, WSIZE, DSIZE, OVERHEAD] <;> omega

theorem extWords_exact (M : Nat) (h : M % 8 = 0) : extWords (M / 4) = M := by
  unfold extWords
  have h2 : ¬(M / 4) % 2 = 1 := by omega
  rw [if_neg h2]
  simp only [WSIZE]
  omega

theorem adjustSize_ok (n : Nat) :
    DSIZE + OVERHEAD ≤ adjustSize n ∧ adjustSize n % 8 = 0 := by
  unfold adjustSize
  by_cases h : n ≤ DSIZE
  · rw [if_pos h]
    exact ⟨le_refl _, by decide⟩
  · rw [if_neg h]
    have h2 : ¬ n ≤ 8 := h
    show 8 + 8 ≤ 8 * ((n + 8 + (8 - 1)) / 8) ∧ 8 * ((n + 8 + (8 - 1)) / 8) % 8 = 0
    omega

/-- Successful heap extension preserves the invariant; the block returned
for placement is free, at the head of the free list, and at least as large
as the requested extension. -/
theorem extend_heap_ok_inv (s : Heap) (words : Nat) (hI : Inv s) (hw : 4 ≤ words) :
    Inv (extend_heap_ok s words).1 ∧
    (extend_heap_ok s words).1.base = s.base ∧
    sumSizes (extend_heap_ok s words).1.blocks = sumSizes s.blocks + extWords words ∧
    (∃ sz rest,
      (⟨(extend_heap_ok s words).2, sz, false⟩ : Block) ∈ (extend_heap_ok s words).1.blocks ∧
      extWords words ≤ sz ∧
      (extend_heap_ok s words).1.freelist = (extend_heap_ok s words).2 :: rest) ∧
    (∀ c ∈ s.blocks, c.alloc = true → c ∈ (extend_heap_ok s words).1.blocks) := by
  set nb : Block := ⟨s.hiWater, extWords words, false⟩ with hnb
  set s2 : Heap := { s with blocks := s.blocks ++ [nb] } with hs2
  have hnotin : s.hiWater ∉ s.freelist := by
    intro hmem
    obtain ⟨c, hc, hca, hcal⟩ := mem_freeAddrs.1 (hI.mem_free _ hmem)
    have hb := addrChain_mem_bounds hI.chain hc
    have hsz := (hI.sizes c hc).1
    simp only [DSIZE, OVERHEAD] at hsz
    simp only [Heap.hiWater] at hca
    omega
  have hpre : PreCoal s2 s.blocks nb [] := by
    refine ⟨by simp [hs2], rfl, hI.base_align, ?_, ?_, hI.nodup, ?_, ?_, hnotin, ?_,
      hI.count⟩
    · -- chain
      show addrChain (s.base + 4 * WSIZE) (s.blocks ++ [nb]) = true
      rw [addrChain_append, Bool.and_eq_true]
      refine ⟨hI.chain, ?_⟩
      rw [addrChain_cons]
      simp [hnb, Heap.hiWater]
    · -- sizes
      intro c hc
      rcases List.mem_append.1 hc with hcl | hcr
      · exact hI.sizes c hcl
      · rw [List.mem_singleton.1 hcr, hnb]
        exact ⟨extWords_ge words hw, extWords_mod8 words⟩
    · -- mem_free
      intro a ha
      obtain ⟨c, hc, hca, hcal⟩ := mem_freeAddrs.1 (hI.mem_free a ha)
      exact mem_freeAddrs.2 ⟨c, List.mem_append_left _ hc, hca, hcal⟩
    · -- free_mem away from nb
      intro c hc hcal hcb
      rcases List.mem_append.1 hc with hcl | hcr
      · exact hI.free_mem c hcl hcal
      · rw [List.mem_singleton.1 hcr] at hcb
        exact absurd rfl hcb
    · -- adjacency with nb marked allocated
      show noAdjFree (s.blocks ++ [(⟨nb.addr, nb.size, true⟩ : Block)]) = true
      rw [noAdjFree_append]
      simp [hI.nadj]
  have hout := coalesce_inv s2 s.blocks nb [] hpre
  have hcoal : extend_heap_ok s words = coalesce s2 s.hiWater := extend_heap_ok_eq s words
  rw [hcoal]
  refine ⟨hout.inv, hout.base_eq.trans rfl, ?_, ?_, ?_⟩
  · rw [hout.sum_eq]
    simp [hs2, hnb]
  · obtain ⟨sz, hmem, hsz⟩ := hout.merged
    obtain ⟨rest, hrest⟩ := hout.head
    exact ⟨sz, rest, hmem, hsz, hrest⟩
  · intro c hc hcal
    exact hout.keep c (List.mem_append_left _ hc) hcal

theorem mm_malloc_fit (grow : Bool) (s : Heap) (n : Nat) (bp : Nat)
    (hn : n ≠ 0) (hf : find_fit s (adjustSize n) = some bp) :
    mm_malloc grow s n = (some bp, place s bp (adjustSize n)) := by
  simp [mm_malloc, hn, hf]

/-- mm_malloc preserves the invariant and the base, keeps every allocated
block in place, and returns doubleword-aligned addresses. -/
theorem mm_malloc_inv (grow : Bool) (s : Heap) (n : Nat) (hI : Inv s) :
    Inv (mm_malloc grow s n).2 ∧ (mm_malloc grow s n).2.base = s.base ∧
    (∀ c ∈ s.blocks, c.alloc = true → c ∈ (mm_malloc grow s n).2.blocks) ∧
    (∀ a, (mm_malloc grow s n).1 = some a → a % 8 = 0) := by
  by_cases hn : n = 0
  · subst hn
    simp only [mm_malloc, if_pos rfl]
    exact ⟨hI, rfl, fun c hc _ => hc, fun a ha => by cases ha⟩
  · cases hf : find_fit s (adjustSize n) with
    | some bp =>
      obtain ⟨hmem, hal, hszf⟩ := find_fit_some hf
      obtain ⟨c, hc, hca, hcal⟩ := mem_freeAddrs.1 (hI.mem_free bp hmem)
      obtain ⟨L, R, hs, hL, hR⟩ := hI.fetch hc
      have hLne : ∀ x ∈ L, x.addr ≠ c.addr := fun x hx => Nat.ne_of_lt (hL x hx).2
      have hget : hdrGet s bp = c := by
        rw [← hca]
        exact hdrGet_of_split hs hLne
      have hsz2 : adjustSize n ≤ c.size := by
        rw [hget] at hszf
        exact hszf
      subst hca
      have hplace := place_inv s L c R (adjustSize n) hI hs hcal
        (adjustSize_ok n).1 (adjustSize_ok n).2 hsz2
      rw [mm_malloc_fit grow s n c.addr hn hf]
      refine ⟨hplace.1, hplace.2.1, ?_, ?_⟩
      · intro d hd hdal
        refine hplace.2.2.2 d hd ?_
        intro he
        have : d = c := hI.addr_unique hd hc he
        rw [this, hcal] at hdal
        cases hdal
      · intro a ha
        have ha2 : c.addr = a := by simpa using ha
        rw [← ha2]
        exact hI.addr_align hc
    | none =>
      cases grow with
      | false =>
        have hmal : mm_malloc false s n = (none, s) := by
          simp [mm_malloc, hn, hf, extend_heap]
        rw [hmal]
        exact ⟨hI, rfl, fun c hc _ => hc, fun a ha => by cases ha⟩
      | true =>
        have hw : 4 ≤ max (adjustSize n) CHUNKSIZE / WSIZE := by
          have h1 : CHUNKSIZE ≤ max (adjustSize n) CHUNKSIZE := le_max_right _ _
          simp only [CHUNKSIZE, WSIZE] at h1 ⊢
          omega
        have hext := extend_heap_ok_inv s (max (adjustSize n) CHUNKSIZE / WSIZE) hI hw
        obtain ⟨hI1, hbase1, hsum1, ⟨sz, rest, hmm, hszge, hhead⟩, hkeep1⟩ := hext
        have hmal : mm_malloc true s n =
            (some (extend_heap_ok s (max (adjustSize n) CHUNKSIZE / WSIZE)).2,
             place (extend_heap_ok s (max (adjustSize n) CHUNKSIZE / WSIZE)).1
               (extend_heap_ok s (max (adjustSize n) CHUNKSIZE / WSIZE)).2
               (adjustSize n)) := by
          simp [mm_malloc, hn, hf, extend_heap]
        have hMmod : (max (adjustSize n) CHUNKSIZE) % 8 = 0 := by
          rcases max_choice (adjustSize n) CHUNKSIZE with hmx | hmx <;> rw [hmx]
          · exact (adjustSize_ok n).2
          · simp [CHUNKSIZE]
        have hasz : adjustSize n ≤ sz := by
          have h1 : adjustSize n ≤ max (adjustSize n) CHUNKSIZE := le_max_left _ _
          have h2 := extWords_exact (max (adjustSize n) CHUNKSIZE) hMmod
          have h3 := hszge
          simp only [WSIZE] at h3
          rw [h2] at h3
          omega
        set out := extend_heap_ok s (max (adjustSize n) CHUNKSIZE / WSIZE) with hout
        obtain ⟨L, R, hs1, hL, hR⟩ := hI1.fetch hmm
        have hmemfl : out.2 ∈ out.1.freelist := by
          rw [hhead]
          exact List.mem_cons_self _ _
        have hplace := place_inv out.1 L ⟨out.2, sz, false⟩ R (adjustSize n) hI1 hs1
          rfl (adjustSize_ok n).1 (adjustSize_ok n).2 hasz
        rw [hmal]
        refine ⟨hplace.1, by rw [hplace.2.1, hbase1], ?_, ?_⟩
        · intro d hd hdal
          have hd1 : d ∈ out.1.blocks := hkeep1 d hd hdal
          refine hplace.2.2.2 d hd1 ?_
          intro he
          have : d = ⟨out.2, sz, false⟩ := hI1.addr_unique hd1 hmm he
          rw [this] at hdal
          cases hdal
        · intro a ha
          have ha2 : out.2 = a := by simpa using ha
          rw [← ha2]
          exact hI1.addr_align hmm

theorem copy_min (a b : Nat) : (if a < b then a else b) = min a b := by
  by_cases h : a < b
  · rw [if_pos h, min_eq_left (Nat.le_of_lt h)]
  · rw [if_neg h, min_eq_right (Nat.le_of_not_lt h)]

/-- The successful branch of mm_realloc, as an equation: a fresh block, a
copy of min(size, stored size of the old block) bytes, then mm_free. -/
theorem mm_realloc_eq (grow : Bool) (s : Heap) (ptr size : Nat) (np : Nat) (s1 : Heap)
    (h : mm_malloc grow s size = (some np, s1)) :
    mm_realloc grow s ptr size =
      some (np, min size (hdrGet s1 ptr).size, mm_free s1 ptr) := by
  unfold mm_realloc
  rw [h]
  simp only [copy_min]

theorem mm_realloc_none (grow : Bool) (s : Heap) (ptr size : Nat) (s1 : Heap)
    (h : mm_malloc grow s size = (none, s1)) :
    mm_realloc grow s ptr size = none := by
  unfold mm_realloc
  rw [h]


theorem mm_realloc_inv (grow : Bool) (s : Heap) (b : Block) (nsz np cs : Nat) (s2 : Heap)
    (hI : Inv s) (hb : b ∈ s.blocks) (hal : b.alloc = true)
    (h : mm_realloc grow s b.addr nsz = some (np, cs, s2)) :
    Inv s2 := by
  have hmal := mm_malloc_inv grow s nsz hI
  rcases hmm : mm_malloc grow s nsz with ⟨o, s1⟩
  rw [hmm] at hmal
  cases o with
  | none =>
    rw [mm_realloc_none grow s b.addr nsz s1 hmm] at h
    cases h
  | some np2 =>
    rw [mm_realloc_eq grow s b.addr nsz np2 s1 hmm] at h
    simp only [Option.some.injEq, Prod.mk.injEq] at h
    obtain ⟨rfl, -, hfree⟩ := h
    have hb1 : b ∈ s1.blocks := hmal.2.2.1 b hb hal
    rw [← hfree]
    exact (mm_free_inv s1 b hmal.1 hb1 hal).1

theorem mm_init_inv (base : Nat) (hb : base % 8 = 0) : Inv (mm_init base) := by
  have hI0 : Inv { base := base, blocks := [], freelist := [], freecount := 0 } := by
    refine ⟨hb, rfl, by simp, List.nodup_nil, by simp, by simp, rfl, by simp⟩
  exact (extend_heap_ok_inv _ (CHUNKSIZE / WSIZE) hI0 (by decide)).1

/-- Every reachable quiescent state satisfies the heap invariant. -/
theorem reachable_inv {s : Heap} (h : Reachable s) : Inv s := by
  induction h with
  | init base hb => exact mm_init_inv base hb
  | malloc s grow n hs ih => exact (mm_malloc_inv grow s n ih).1
  | free s b hs hb ha ih => exact (mm_free_inv s b ih hb ha).1
  | realloc s grow b n np cs s2 hs hb ha h ih =>
    exact mm_realloc_inv grow s b n np cs s2 ih hb ha h

/-! Pairwise consequences of the invariant, feeding the claim theorems. -/

theorem noAdjFree_pair {l : List Block} (h : noAdjFree l = true) (i : Nat) :
    (l.getD i sentinel).alloc = true ∨ (l.getD (i + 1) sentinel).alloc = true := by
  induction l generalizing i with
  | nil => left; rfl
  | cons x t ih =>
    cases i with
    | zero =>
      cases t with
      | nil => right; rfl
      | cons y t2 =>
        rw [noAdjFree_cons_cons, Bool.and_eq_true, Bool.or_eq_true_iff] at h
        simpa using h.1
    | succ j =>
      have ht : noAdjFree t = true := by
        rw [noAdjFree_cons, Bool.and_eq_true] at h
        exact h.2
      simpa using ih ht j

theorem addrChain_pairwise {a : Nat} {l : List Block} (h : addrChain a l = true)
    (hsz : ∀ b ∈ l, 1 ≤ b.size) :
    l.Pairwise (fun b c => b.addr < c.addr) := by
  induction l generalizing a with
  | nil => exact List.Pairwise.nil
  | cons x t ih =>
    rw [addrChain_cons, Bool.and_eq_true, beq_iff_eq] at h
    obtain ⟨h1, h2⟩ := h
    refine List.Pairwise.cons ?_ (ih h2 fun b hb => hsz b (List.mem_cons_of_mem x hb))
    intro c hc
    have hb := addrChain_mem_bounds h2 hc
    have hx := hsz x (List.mem_cons_self x t)
    omega

theorem freeAddrs_nodup {s : Heap} (hI : Inv s) : (freeAddrs s).Nodup := by
  have hpw : s.blocks.Pairwise (fun b c => b.addr < c.addr) :=
    addrChain_pairwise hI.chain fun b hb => by
      have := (hI.sizes b hb).1
      simp only [DSIZE, OVERHEAD] at this
      omega
  have hpf := hpw.filter (fun b => !b.alloc)
  unfold freeAddrs
  refine List.pairwise_map.2 ?_
  exact hpf.imp fun hlt => Nat.ne_of_lt hlt

theorem hiWater_eq_of (s1 s2 : Heap) (hb : s1.base = s2.base)
    (hs : sumSizes s1.blocks = sumSizes s2.blocks) : s1.hiWater = s2.hiWater := by
  unfold Heap.hiWater
  rw [hb, hs]

/-- Claim C1: after every mutating operation returns, no two physically
adjacent blocks are both free: in every reachable heap state, a block whose
header allocated flag is 0 has both physical neighbours (prologue/epilogue
sentinels at the ends) with allocated flag 1. -/
theorem C1_no_adjacent_free (s : Heap) (hs : Reachable s) (i : Nat)
    (hfree : (s.blocks.getD i sentinel).alloc = false) :
    prevAllocAt s i = true ∧ nextAllocAt s i = true := by
  have hI := reachable_inv hs
  constructor
  · unfold prevAllocAt
    by_cases h0 : i = 0
    · rw [if_pos h0]
    · rw [if_neg h0]
      obtain ⟨j, rfl⟩ : ∃ j, i = j + 1 := ⟨i - 1, by omega⟩
      rcases noAdjFree_pair hI.nadj j with h | h
      · simpa using h
      · rw [hfree] at h
        cases h
  · unfold nextAllocAt
    rcases noAdjFree_pair hI.nadj i with h | h
    · rw [hfree] at h
      cases h
    · exact h

/-- Claim C5: at every quiescent point, the set of blocks reachable by
walking the Free List from its head equals exactly the set of blocks whose
header allocated flag is 0, and the two collections have equal
cardinality. -/
theorem C5_freelist_header_agreement (s : Heap) (hs : Reachable s) :
    (∀ a, a ∈ s.freelist ↔ a ∈ freeAddrs s) ∧
    s.freelist.length = (freeAddrs s).length := by
  have hI := reachable_inv hs
  have hiff : ∀ a, a ∈ s.freelist ↔ a ∈ freeAddrs s := by
    intro a
    constructor
    · exact hI.mem_free a
    · intro ha
      obtain ⟨b, hb, hba, hbal⟩ := mem_freeAddrs.1 ha
      rw [← hba]
      exact hI.free_mem b hb hbal
  exact ⟨hiff,
    ((List.perm_ext_iff_of_nodup hI.nodup (freeAddrs_nodup hI)).2 hiff).length_eq⟩

/-- Claim C8: every address returned by a successful mm_malloc or
mm_realloc call, from every reachable heap state and for every request
size, is a multiple of the alignment granularity 8. -/
theorem C8_returned_addresses_aligned (s : Heap) (hs : Reachable s) :
    (∀ grow n a, (mm_malloc grow s n).1 = some a → a % 8 = 0) ∧
    (∀ grow ptr n np cs s2, mm_realloc grow s ptr n = some (np, cs, s2) →
      np % 8 = 0) := by
  have hI := reachable_inv hs
  constructor
  · intro grow n a ha
    exact (mm_malloc_inv grow s n hI).2.2.2 a ha
  · intro grow ptr n np cs s2 h
    rcases hmm : mm_malloc grow s n with ⟨o, s1⟩
    cases o with
    | none =>
      rw [mm_realloc_none grow s ptr n s1 hmm] at h
      cases h
    | some np2 =>
      rw [mm_realloc_eq grow s ptr n np2 s1 hmm] at h
      simp only [Option.some.injEq, Prod.mk.injEq] at h
      obtain ⟨h1, -, -⟩ := h
      subst h1
      exact (mm_malloc_inv grow s n hI).2.2.2 np2 (by rw [hmm])

/-- Claim C7: when the provider's grow operation fails and no free block
fits, mm_malloc returns the null failure result and the heap state is
completely unchanged — no header, footer, link, head or bound is touched. -/
theorem C7_failed_growth_no_side_effects (s : Heap) (n : Nat)
    (hmiss : find_fit s (adjustSize n) = none) :
    mm_malloc false s n = (none, s) := by
  by_cases hn : n = 0
  · subst hn
    simp [mm_malloc]
  · simp [mm_malloc, hn, hmiss, extend_heap]

/-- Claim C2: find_fit scans the Free List from its head in link order and
returns the first block whose stored size is at least the request, or none
when no free block is large enough — provided every listed address carries
a cleared allocated flag (as the invariant guarantees) and the block count
is not negative. -/
theorem C2_find_fit_is_first_fit (s : Heap) (asize : Nat)
    (hfl : ∀ a ∈ s.freelist, (hdrGet s a).alloc = false)
    (hc : ¬ s.freecount < 0) :
    find_fit s asize = firstFitSpec s asize ∧
    (firstFitSpec s asize = none ↔ ∀ a ∈ s.freelist, ¬ asize ≤ (hdrGet s a).size) := by
  constructor
  · unfold find_fit firstFitSpec
    rw [if_neg hc]
    exact find_fit_loop_spec s asize s.freelist hfl
  · unfold firstFitSpec
    rw [List.find?_eq_none]
    constructor
    · intro h a ha hle
      have := h a ha
      simp only [decide_eq_true_eq] at this
      exact this hle
    · intro h a ha
      simp only [decide_eq_true_eq]
      exact h a ha

/-- Claim C3: place first removes the chosen block from the Free List;
then, when the leftover reaches the minimum free-block size
DSIZE + OVERHEAD = 16, it formats the first asize bytes as allocated, the
remainder as a free block of the leftover size, and inserts the remainder
into the Free List; otherwise it allocates the whole block at its original
size with no split. -/
theorem C3_place_split_or_whole (s : Heap) (L : List Block) (b : Block)
    (R : List Block) (asize : Nat) (hI : Inv s) (hs : s.blocks = L ++ b :: R)
    (hfree : b.alloc = false) (hle : asize ≤ b.size) :
    (DSIZE + OVERHEAD ≤ b.size - asize →
      place s b.addr asize =
        { s with
            blocks := L ++ (⟨b.addr, asize, true⟩ : Block) ::
              (⟨b.addr + asize, b.size - asize, false⟩ : Block) :: R,
            freelist := (b.addr + asize) :: s.freelist.erase b.addr,
            freecount := s.freecount }) ∧
    (¬ DSIZE + OVERHEAD ≤ b.size - asize →
      place s b.addr asize =
        { s with
            blocks := L ++ (⟨b.addr, b.size, true⟩ : Block) :: R,
            freelist := s.freelist.erase b.addr,
            freecount := s.freecount - 1 }) := by
  have hmemb : b ∈ s.blocks := by rw [hs]; simp
  have hbm : b.addr ∈ s.freelist := hI.free_mem b hmemb hfree
  have hchain' := hI.chain
  rw [hs, addrChain_middle, Bool.and_eq_true, Bool.and_eq_true, beq_iff_eq] at hchain'
  obtain ⟨⟨hchL, haddr⟩, -⟩ := hchain'
  have hLne : ∀ x ∈ L, x.addr ≠ b.addr := by
    intro x hx
    have h1 := addrChain_mem_bounds hchL hx
    have h2 := (hI.sizes x (by rw [hs]; exact List.mem_append_left _ hx)).1
    simp only [DSIZE, OVERHEAD] at h2
    omega
  exact ⟨fun hbig => place_split_spec s L b R asize hs hLne hbig hI.count hbm,
    fun hsmall => place_whole_spec s L b R asize hs hLne hsmall hI.count hbm⟩

/-- Claim C10: when find_fit returns a fitting free block, mm_malloc
completes by placement alone — the heap is not grown (the result does not
depend on the provider), the high-water mark and epilogue position are
unchanged, and every block other than the chosen one (and its split-off
remainder) is untouched. -/
theorem C10_fit_means_no_growth (grow : Bool) (s : Heap) (n : Nat) (bp : Nat)
    (hI : Inv s) (hn : n ≠ 0) (hfit : find_fit s (adjustSize n) = some bp) :
    mm_malloc grow s n = (some bp, place s bp (adjustSize n)) ∧
    (mm_malloc grow s n).2.hiWater = s.hiWater ∧
    (∀ c ∈ s.blocks, c.addr ≠ bp → c ∈ (mm_malloc grow s n).2.blocks) := by
  obtain ⟨hmem, hal, hszf⟩ := find_fit_some hfit
  obtain ⟨c, hc, hca, hcal⟩ := mem_freeAddrs.1 (hI.mem_free bp hmem)
  obtain ⟨L, R, hs, hL, hR⟩ := hI.fetch hc
  have hLne : ∀ x ∈ L, x.addr ≠ c.addr := fun x hx => Nat.ne_of_lt (hL x hx).2
  have hget : hdrGet s bp = c := by
    rw [← hca]
    exact hdrGet_of_split hs hLne
  have hsz2 : adjustSize n ≤ c.size := by
    rw [hget] at hszf
    exact hszf
  subst hca
  have hplace := place_inv s L c R (adjustSize n) hI hs hcal
    (adjustSize_ok n).1 (adjustSize_ok n).2 hsz2
  have hmal := mm_malloc_fit grow s n c.addr hn hfit
  refine ⟨hmal, ?_, ?_⟩
  · rw [hmal]
    exact hiWater_eq_of _ _ hplace.2.1 hplace.2.2.1
  · intro d hd hdb
    rw [hmal]
    exact hplace.2.2.2 d hd hdb

/-- Address bounds of the decomposition carried by a coalesce
precondition. -/
theorem PreCoal.bounds {s : Heap} {L : List Block} {b : Block} {R : List Block}
    (h : PreCoal s L b R) :
    (∀ x ∈ L, x.addr + x.size ≤ b.addr ∧ x.addr < b.addr) ∧
    (∀ y ∈ R, b.addr + b.size ≤ y.addr ∧ b.addr < y.addr) := by
  have hchain' := h.chain
  rw [h.hs, addrChain_middle, Bool.and_eq_true, Bool.and_eq_true, beq_iff_eq] at hchain'
  obtain ⟨⟨hchL, haddr⟩, hchR0⟩ := hchain'
  have hbsz := h.sizes b (by rw [h.hs]; simp)
  simp only [DSIZE, OVERHEAD] at hbsz
  constructor
  · intro x hx
    have h1 := addrChain_mem_bounds hchL hx
    have h2 := (h.sizes x (by rw [h.hs]; exact List.mem_append_left _ hx)).1
    simp only [DSIZE, OVERHEAD] at h2
    omega
  · intro y hy
    have h1 := addrChain_mem_bounds hchR0 hy
    omega

/-- Claim C6: in every merge case of coalesce, each merging free neighbour
is unlinked from the Free List by its pre-merge address (strictly before the
merged header/footer replace its tags), and exactly one insert ends
coalesce, placing the final merged block — whose address is the previous
block's whenever the previous neighbour was free — at the head of the
list. -/
theorem C6_coalesce_removals_and_single_insert (s : Heap) (L : List Block) (b : Block)
    (R : List Block) (h : PreCoal s L b R) :
    (lastAlloc L = true → headAlloc R = true →
      coalesce s b.addr =
        ({ s with
             freelist := b.addr :: s.freelist,
             freecount := s.freecount + 1 }, b.addr)) ∧
    (∀ n R2, R = n :: R2 → n.alloc = false → lastAlloc L = true →
      coalesce s b.addr =
        ({ s with
             blocks := L ++ (⟨b.addr, b.size + n.size, false⟩ : Block) :: R2,
             freelist := b.addr :: s.freelist.erase n.addr,
             freecount := s.freecount }, b.addr)) ∧
    (∀ L2 p, L = L2 ++ [p] → p.alloc = false → headAlloc R = true →
      coalesce s b.addr =
        ({ s with
             blocks := L2 ++ (⟨p.addr, b.size + p.size, false⟩ : Block) :: R,
             freelist := p.addr :: s.freelist.erase p.addr,
             freecount := s.freecount }, p.addr)) ∧
    (∀ L2 p n R2, L = L2 ++ [p] → R = n :: R2 → p.alloc = false → n.alloc = false →
      coalesce s b.addr =
        ({ s with
             blocks := L2 ++ (⟨p.addr, b.size + (p.size + n.size), false⟩ : Block) :: R2,
             freelist := p.addr :: (s.freelist.erase n.addr).erase p.addr,
             freecount := s.freecount - 1 }, p.addr)) := by
  obtain ⟨hbL, hbR⟩ := h.bounds
  have hLne : ∀ x ∈ L, x.addr ≠ b.addr := fun x hx => Nat.ne_of_lt (hbL x hx).2
  refine ⟨?_, ?_, ?_, ?_⟩
  · intro hPA hNA
    exact coalesce_case1 s L b R h.hs hLne hPA hNA
  · rintro n R2 rfl hn hPA
    have hmemn : n ∈ s.blocks := by
      rw [h.hs]
      simp
    have hnne : n.addr ≠ b.addr :=
      (Nat.ne_of_lt (hbR n (List.mem_cons_self _ _)).2).symm
    exact coalesce_case2 s L b n R2 h.hs hLne hPA hn h.count
      (h.free_mem n hmemn hn hnne)
  · rintro L2 p rfl hp hNA
    have hmemp : p ∈ s.blocks := by
      rw [h.hs]
      simp
    have hpne : p.addr ≠ b.addr := hLne p (by simp)
    exact coalesce_case3 s L2 p b R h.hs hLne hp hNA h.count
      (h.free_mem p hmemp hp hpne)
  · rintro L2 p n R2 rfl rfl hp hn
    have hmemp : p ∈ s.blocks := by
      rw [h.hs]
      simp
    have hmemn : n ∈ s.blocks := by
      rw [h.hs]
      simp
    have hpne : p.addr ≠ b.addr := hLne p (by simp)
    have hnne : n.addr ≠ b.addr :=
      (Nat.ne_of_lt (hbR n (List.mem_cons_self _ _)).2).symm
    have hpn : p.addr ≠ n.addr := by
      have h1 := (hbL p (by simp)).2
      have h2 := (hbR n (List.mem_cons_self _ _)).2
      omega
    exact coalesce_case4 s L2 p b n R2 h.hs hLne hp hn h.count
      (h.free_mem p hmemp hp hpne) (h.free_mem n hmemn hn hnne) hpn

/-- Claim C4 (amended): for a live allocated block and any new size on
which the internal allocation succeeds, mm_realloc allocates a fresh
block, copies exactly min(new_size, old block's stored size — overhead
included) bytes, frees the old block and returns the fresh address. -/
theorem C4_realloc_copy_is_stored_size (grow : Bool) (s : Heap) (b : Block)
    (nsz np cs : Nat) (s2 : Heap) (hI : Inv s) (hb : b ∈ s.blocks)
    (hal : b.alloc = true)
    (h : mm_realloc grow s b.addr nsz = some (np, cs, s2)) :
    cs = min nsz b.size ∧
    ∃ s1, mm_malloc grow s nsz = (some np, s1) ∧ s2 = mm_free s1 b.addr := by
  have hmal := mm_malloc_inv grow s nsz hI
  rcases hmm : mm_malloc grow s nsz with ⟨o, s1⟩
  rw [hmm] at hmal
  cases o with
  | none =>
    rw [mm_realloc_none grow s b.addr nsz s1 hmm] at h
    cases h
  | some np2 =>
    rw [mm_realloc_eq grow s b.addr nsz np2 s1 hmm] at h
    simp only [Option.some.injEq, Prod.mk.injEq] at h
    obtain ⟨h1, hcs, hs2⟩ := h
    subst h1
    have hb1 : b ∈ s1.blocks := hmal.2.2.1 b hb hal
    obtain ⟨L, R, hs1, hL, hR⟩ := hmal.1.fetch hb1
    have hLne : ∀ x ∈ L, x.addr ≠ b.addr := fun x hx => Nat.ne_of_lt (hL x hx).2
    have hget : hdrGet s1 b.addr = b := hdrGet_of_split hs1 hLne
    refine ⟨?_, s1, rfl, hs2.symm⟩
    rw [← hcs, hget]

/-- Claim C4 (counterexample): on a live 16-byte block (payload 8),
reallocating to 12 bytes copies 12 bytes — min of the request and the
stored size including overhead — not min(new_size, payload) = 8. -/
theorem C4_counterexample :
    (mm_realloc true (mm_malloc true (mm_init 0) 8).2 16 12).map (fun t => t.2.1) =
      some 12 ∧
    min 12 (payloadSize (mm_malloc true (mm_init 0) 8).2 16) = 8 ∧
    (12 : Nat) ≠ 8 := by
  decide

/-- mm_free on a block given by its physical decomposition: the tag is
cleared in place and coalesce runs on the rewritten run. -/
theorem mm_free_decomp (s' : Heap) (L' : List Block) (A : Block) (R' : List Block)
    (hs' : s'.blocks = L' ++ A :: R') (hL' : ∀ x ∈ L', x.addr ≠ A.addr)
    (hR' : ∀ y ∈ R', y.addr ≠ A.addr) :
    mm_free s' A.addr =
      (coalesce { s' with blocks := L' ++ (⟨A.addr, A.size, false⟩ : Block) :: R' }
        A.addr).1 := by
  unfold mm_free
  rw [hs', map_clear L' A R' hL' hR']

/-- allocate(n) on a fitting free block, free it, allocate(n) again: the
same address comes back both times and the high-water mark of the final
state equals the initial one. -/
theorem malloc_free_malloc (g1 g2 : Bool) (s : Heap) (n bp : Nat)
    (hI : Inv s) (hn : n ≠ 0) (hfit : find_fit s (adjustSize n) = some bp) :
    (mm_malloc g1 s n).1 = some bp ∧
    (mm_malloc g2 (mm_free (mm_malloc g1 s n).2 bp) n).1 = some bp ∧
    (mm_malloc g2 (mm_free (mm_malloc g1 s n).2 bp) n).2.hiWater = s.hiWater := by
  obtain ⟨hmem, hal, hszf⟩ := find_fit_some hfit
  obtain ⟨c, hc, hca, hcal⟩ := mem_freeAddrs.1 (hI.mem_free bp hmem)
  obtain ⟨L, R, hs, hL, hR⟩ := hI.fetch hc
  have hLne : ∀ x ∈ L, x.addr ≠ c.addr := fun x hx => Nat.ne_of_lt (hL x hx).2
  have hget : hdrGet s bp = c := by
    rw [← hca]
    exact hdrGet_of_split hs hLne
  have hsz2 : adjustSize n ≤ c.size := by
    rw [hget] at hszf
    exact hszf
  subst hca
  set asize := adjustSize n with hasize
  have h16 : DSIZE + OVERHEAD ≤ asize := (adjustSize_ok n).1
  have hmod : asize % 8 = 0 := (adjustSize_ok n).2
  have hbm : c.addr ∈ s.freelist := hmem
  have hposf : 0 < s.freelist.length := List.length_pos.2 (List.ne_nil_of_mem hbm)
  have hnadj' := hI.nadj
  rw [hs, noAdjFree_middle, Bool.and_eq_true, Bool.and_eq_true, Bool.and_eq_true]
    at hnadj'
  obtain ⟨hadjL, hjL, hjR, hadjR⟩ := hnadj'
  have hPA : lastAlloc L = true := by
    rcases Bool.or_eq_true_iff.1 hjL with h1 | h1
    · exact h1
    · rw [hcal] at h1
      cases h1
  have hNA : headAlloc R = true := by
    rcases Bool.or_eq_true_iff.1 hjR with h1 | h1
    · rw [hcal] at h1
      cases h1
    · exact h1
  have hRne : ∀ y ∈ R, y.addr ≠ c.addr := fun y hy => (Nat.ne_of_lt (hR y hy).2).symm
  have hcsz := hI.sizes c hc
  simp only [DSIZE, OVERHEAD] at hcsz h16
  have hmal1 := mm_malloc_fit g1 s n c.addr hn hfit
  set S3 : Heap := { s with freelist := c.addr :: s.freelist.erase c.addr } with hS3
  have hcnt2 : s.freecount = (((c.addr + asize) :: s.freelist.erase c.addr).length : Int) := by
    rw [List.length_cons, List.length_erase_of_mem hbm]
    have := hI.count
    omega
  have hkey : mm_free (place s c.addr asize) c.addr = S3 := by
    by_cases hbig : DSIZE + OVERHEAD ≤ c.size - asize
    · -- split, then the freed head merges back with the remainder (case 2)
      rw [place_split_spec s L c R asize hs hLne hbig hI.count hbm]
      refine Eq.trans (mm_free_decomp _ L (⟨c.addr, asize, true⟩ : Block)
        ((⟨c.addr + asize, c.size - asize, false⟩ : Block) :: R) rfl hLne ?_) ?_
      · intro y hy
        rcases List.mem_cons.1 hy with rfl | hy2
        · show c.addr + asize ≠ c.addr
          omega
        · exact hRne y hy2
      show (coalesce
        { base := s.base,
          blocks := L ++ (⟨c.addr, asize, false⟩ : Block) ::
            (⟨c.addr + asize, c.size - asize, false⟩ : Block) :: R,
          freelist := (c.addr + asize) :: s.freelist.erase c.addr,
          freecount := s.freecount } c.addr).1 = S3
      rw [coalesce_case2
        { base := s.base,
          blocks := L ++ (⟨c.addr, asize, false⟩ : Block) ::
            (⟨c.addr + asize, c.size - asize, false⟩ : Block) :: R,
          freelist := (c.addr + asize) :: s.freelist.erase c.addr,
          freecount := s.freecount } L (⟨c.addr, asize, false⟩ : Block)
        (⟨c.addr + asize, c.size - asize, false⟩ : Block) R rfl hLne hPA rfl
        hcnt2 (List.mem_cons_self _ _)]
      show ({ base := s.base,
              blocks := L ++ (⟨c.addr, asize + (c.size - asize), false⟩ : Block) :: R,
              freelist := c.addr ::
                ((c.addr + asize) :: s.freelist.erase c.addr).erase (c.addr + asize),
              freecount := s.freecount } : Heap) = S3
      rw [List.erase_cons_head]
      have hms : asize + (c.size - asize) = c.size := by omega
      rw [hms, block_eta_free hcal]
      show ({ base := s.base,
              blocks := L ++ c :: R,
              freelist := c.addr :: s.freelist.erase c.addr,
              freecount := s.freecount } : Heap) = S3
      rw [← hs]
    · -- whole-block allocation, then the freed block stands alone (case 1)
      rw [place_whole_spec s L c R asize hs hLne hbig hI.count hbm]
      refine Eq.trans (mm_free_decomp _ L (⟨c.addr, c.size, true⟩ : Block) R rfl hLne
        hRne) ?_
      show (coalesce
        { base := s.base,
          blocks := L ++ (⟨c.addr, c.size, false⟩ : Block) :: R,
          freelist := s.freelist.erase c.addr,
          freecount := s.freecount - 1 } c.addr).1 = S3
      rw [coalesce_case1
        { base := s.base,
          blocks := L ++ (⟨c.addr, c.size, false⟩ : Block) :: R,
          freelist := s.freelist.erase c.addr,
          freecount := s.freecount - 1 } L (⟨c.addr, c.size, false⟩ : Block) R rfl
        hLne hPA hNA]
      show ({ base := s.base,
              blocks := L ++ (⟨c.addr, c.size, false⟩ : Block) :: R,
              freelist := c.addr :: s.freelist.erase c.addr,
              freecount := s.freecount - 1 + 1 } : Heap) = S3
      rw [Int.sub_add_cancel, block_eta_free hcal]
      show ({ base := s.base,
              blocks := L ++ c :: R,
              freelist := c.addr :: s.freelist.erase c.addr,
              freecount := s.freecount } : Heap) = S3
      rw [← hs]
  have hIS3 : Inv S3 := by
    refine ⟨hI.base_align, hI.chain, hI.sizes, ?_, ?_, ?_, hI.nadj, ?_⟩
    · exact List.nodup_cons.2
        ⟨fun hmem2 => (hI.nodup.mem_erase_iff.1 hmem2).1 rfl, hI.nodup.erase _⟩
    · intro a ha
      rcases List.mem_cons.1 ha with rfl | ha2
      · exact mem_freeAddrs.2 ⟨c, hc, rfl, hcal⟩
      · exact hI.mem_free a (List.mem_of_mem_erase ha2)
    · intro d hd hdal
      have hdm := hI.free_mem d hd hdal
      by_cases hdc : d.addr = c.addr
      · rw [hdc]
        exact List.mem_cons_self _ _
      · exact List.mem_cons_of_mem _ ((List.mem_erase_of_ne hdc).2 hdm)
    · show s.freecount = ((c.addr :: s.freelist.erase c.addr).length : Int)
      rw [List.length_cons, List.length_erase_of_mem hbm]
      have := hI.count
      omega
  have hget3 : hdrGet S3 c.addr = c :=
    hdrGet_of_split (show S3.blocks = L ++ c :: R from hs) hLne
  have hfit3 : find_fit S3 asize = some c.addr := by
    unfold find_fit
    rw [if_neg (show ¬ S3.freecount < 0 by
      show ¬ s.freecount < 0
      rw [hI.count]
      omega)]
    show (if (hdrGet S3 c.addr).alloc = false ∧ asize ≤ (hdrGet S3 c.addr).size
      then some c.addr else find_fit_loop S3 asize (s.freelist.erase c.addr)) =
        some c.addr
    rw [if_pos ⟨by rw [hget3]; exact hcal, by rw [hget3]; exact hsz2⟩]
  have hmal2 := mm_malloc_fit g2 S3 n c.addr hn hfit3
  have hplace3 := place_inv S3 L c R asize hIS3
    (show S3.blocks = L ++ c :: R from hs) hcal (adjustSize_ok n).1 hmod hsz2
  refine ⟨by rw [hmal1], ?_, ?_⟩
  · rw [hmal1, hkey, hmal2]
  · rw [hmal1, hkey, hmal2]
    have h1 := hiWater_eq_of (place S3 c.addr asize) S3 hplace3.2.1 hplace3.2.2.1
    rw [h1]
    rfl

/-- Claim C9 (amended): starting from any consistent quiescent state whose
free list already holds a block fitting the adjusted request (find_fit
succeeds), allocate(100), free of the returned address, then allocate(100)
again returns the same address and leaves the high-water mark equal to its
value before the first call.  Without such a block the first call grows
the heap and the high-water mark increases (see the counterexample). -/
theorem C9_alloc_free_alloc_symmetry (g1 g2 : Bool) (s : Heap) (bp : Nat)
    (hI : Inv s) (hfit : find_fit s (adjustSize 100) = some bp) :
    (mm_malloc g1 s 100).1 = some bp ∧
    (mm_malloc g2 (mm_free (mm_malloc g1 s 100).2 bp) 100).1 = some bp ∧
    (mm_malloc g2 (mm_free (mm_malloc g1 s 100).2 bp) 100).2.hiWater = s.hiWater :=
  malloc_free_malloc g1 g2 s 100 bp hI (by decide) hfit

/-- Claim C9 (counterexample): from the reachable quiescent state in which
the whole initial chunk is allocated, allocate(100) grows the heap; the
freed space is reclaimed and the same address 4112 comes back, but the
high-water mark after the sequence is 8208, not its initial value 4112. -/
theorem C9_counterexample :
    (mm_malloc true (mm_malloc true (mm_init 0) 4088).2 100).1 = some 4112 ∧
    (mm_malloc true
        (mm_free (mm_malloc true (mm_malloc true (mm_init 0) 4088).2 100).2 4112)
        100).1 = some 4112 ∧
    (mm_malloc true
        (mm_free (mm_malloc true (mm_malloc true (mm_init 0) 4088).2 100).2 4112)
        100).2.hiWater = 8208 ∧
    (mm_malloc true (mm_init 0) 4088).2.hiWater = 4112 ∧
    (8208 : Nat) ≠ 4112 := by
  decide

theorem C1_witness :
    prevAllocAt (mm_init 0) 0 = true ∧ nextAllocAt (mm_init 0) 0 = true :=
  C1_no_adjacent_free (mm_init 0) (Reachable.init 0 (by decide)) 0 (by decide)

theorem C2_witness : find_fit (mm_init 0) 100 = firstFitSpec (mm_init 0) 100 :=
  (C2_find_fit_is_first_fit (mm_init 0) 100 (by decide) (by decide)).1

theorem C3_witness :
    place (mm_init 0) 16 16 =
      { base := 0, blocks := [⟨16, 16, true⟩, ⟨32, 4080, false⟩],
        freelist := [32], freecount := 1 } :=
  (C3_place_split_or_whole (mm_init 0) [] (Block.mk 16 4096 false) [] 16
    (by decide) (by decide) (by decide) (by decide)).1 (by decide)

theorem C4_amended_witness :
    (12 : Nat) = min 12 (Block.mk 16 16 true).size ∧
    ∃ s1, mm_malloc true (mm_malloc true (mm_init 0) 8).2 12 = (some 32, s1) ∧
      ({ base := 0,
         blocks := [⟨16, 16, false⟩, ⟨32, 24, true⟩, ⟨56, 4056, false⟩],
         freelist := [16, 56], freecount := 2 } : Heap) = mm_free s1 16 :=
  C4_realloc_copy_is_stored_size true (mm_malloc true (mm_init 0) 8).2
    (Block.mk 16 16 true) 12 32 12
    { base := 0, blocks := [⟨16, 16, false⟩, ⟨32, 24, true⟩, ⟨56, 4056, false⟩],
      freelist := [16, 56], freecount := 2 }
    (by decide) (by decide) rfl (by decide)

theorem C5_witness :
    (mm_init 0).freelist.length = (freeAddrs (mm_init 0)).length :=
  (C5_freelist_header_agreement (mm_init 0) (Reachable.init 0 (by decide))).2

theorem C6_witness :
    coalesce
      { base := 0, blocks := [⟨16, 16, false⟩, ⟨32, 4080, false⟩],
        freelist := [32], freecount := 1 } 16 =
      ({ base := 0, blocks := [⟨16, 4096, false⟩], freelist := [16],
         freecount := 1 }, 16) :=
  (C6_coalesce_removals_and_single_insert
    { base := 0, blocks := [⟨16, 16, false⟩, ⟨32, 4080, false⟩],
      freelist := [32], freecount := 1 }
    [] (Block.mk 16 16 false) [Block.mk 32 4080 false]
    ⟨by decide, by decide, by decide, by decide, by decide, by decide, by decide,
     by decide, by decide, by decide, by decide⟩).2.1
    (Block.mk 32 4080 false) [] rfl (by decide) (by decide)

theorem C7_witness :
    mm_malloc false (mm_malloc true (mm_init 0) 4088).2 100 =
      (none, (mm_malloc true (mm_init 0) 4088).2) :=
  C7_failed_growth_no_side_effects (mm_malloc true (mm_init 0) 4088).2 100 (by decide)

theorem C8_witness : (16 : Nat) % 8 = 0 :=
  (C8_returned_addresses_aligned (mm_init 0) (Reachable.init 0 (by decide))).1
    true 8 16 (by decide)

theorem C9_amended_witness :
    (mm_malloc true (mm_init 0) 100).1 = some 16 ∧
    (mm_malloc true (mm_free (mm_malloc true (mm_init 0) 100).2 16) 100).1 =
      some 16 ∧
    (mm_malloc true (mm_free (mm_malloc true (mm_init 0) 100).2 16) 100).2.hiWater =
      (mm_init 0).hiWater :=
  C9_alloc_free_alloc_symmetry true true (mm_init 0) 16 (by decide) (by decide)

theorem C10_witness :
    mm_malloc false (mm_init 0) 8 = (some 16, place (mm_init 0) 16 (adjustSize 8)) ∧
    (mm_malloc false (mm_init 0) 8).2.hiWater = (mm_init 0).hiWater ∧
    (∀ c ∈ (mm_init 0).blocks, c.addr ≠ 16 →
      c ∈ (mm_malloc false (mm_init 0) 8).2.blocks) :=
  C10_fit_means_no_growth false (mm_init 0) 8 16 (by decide) (by decide) (by decide)

end Mlab
